import Mathlib

/-!
Verification of the undo/redo operation-log engine (`src/undo.py`).

The embedding is a shallow one over the in-memory representations used by the
Python source:

* the append-only log (`FakeLog`) is a `List Operation`; `get idx` is
  `List.get?`, `top()` is the last element paired with its index, `next_idx()`
  is the length;
* the key/value store (`FakeStore`) is a Python dict, embedded as an
  association list `StoreD` with Python-dict update semantics (`dset` replaces
  an existing key in place, otherwise appends); `dget` mirrors `dict.get`,
  which returns `None` both for an absent key and for a key stored with value
  `None`, hence its result type flattens the two;
* record fields that the Python constructor defaults to `None` are `Option`s;
  the empty-tuple default for `redos` is the empty list;
* timestamps (`now()`) are external inputs, passed to each engine operation as
  a `date : Nat` argument;
* engine methods mutate `self.log` / `self.store` and may raise; they are
  embedded as functions from an `Engine` to `Option Res`, where `Res` carries
  the post-state (Python mutations survive a raise) together with
  `Option Err` (`none` = normal return, `some _` = an exception propagated to
  the caller).  The outer `Option` is `none` exactly on paths where the
  Python would fault on malformed data (indexing with `None`, a missing
  change-set, `top()` of an empty log): such paths are unreachable on the
  well-formed logs the theorems quantify over.

The record literals each method builds (`prepare_entry`, `commit_entry`,
`rollback_entry`, …) are lifted to top-level definitions (`doPrepare`,
`doCommit`, …) so that the theorems can name them; each is the literal
translation of the corresponding constructor call in the source.
-/

/-- The `kind` strings of operation records, as an enumeration. -/
inductive Kind where
  | commitInit
  | prepareDo
  | commitDo
  | rollbackDo
  | prepareUndo
  | commitUndo
  | rollbackUndo
  | prepareRedo
  | commitRedo
  | rollbackRedo
  | commitClose
deriving DecidableEq, Repr

/-- Mirrors `kind.startswith("prepare-")` in `recover`. -/
def Kind.isPrepare : Kind → Bool
  | .prepareDo => true
  | .prepareUndo => true
  | .prepareRedo => true
  | _ => false

/-- Mirrors `kind.replace("prepare-", "rollback-")` in `recover`. -/
def Kind.toRollback : Kind → Kind
  | .prepareDo => .rollbackDo
  | .prepareUndo => .rollbackUndo
  | .prepareRedo => .rollbackRedo
  | k => k

/-- Engine-owned state mapping carried on every record (a Python dict). -/
abbrev StateMap : Type := List (String × Option String)

/-- The store's dictionary (`FakeStore.d`): insertion-ordered key/value list. -/
abbrev StoreD : Type := List (String × Option String)

/-- A change-set: `key → (old, new)` pairs in insertion order. -/
abbrev Changes : Type := List (String × (Option String × Option String))

/-- Mirrors `dict.get(k)`: first match, `None` for an absent key.  Because values may
themselves be `None`, the stored `Option String` is returned directly, so an
absent key and a key holding `None` are indistinguishable — exactly as through
`dict.get` in the Python store. -/
def dget : List (String × Option String) → String → Option String
  | [], _ => none
  | (k', v') :: rest, k => if k' = k then v' else dget rest k

/-- Mirrors `d[k] = v` on a Python dict: replace the first occurrence in place,
otherwise append at the end (insertion order preserved). -/
def dset : List (String × Option String) → String → Option String →
    List (String × Option String)
  | [], k, v => [(k, v)]
  | (k', v') :: rest, k, v => if k' = k then (k, v) :: rest else (k', v') :: dset rest k v

/-- Embeds `FakeStore.apply`: check each key still holds `old`, then set it to `new`.
The Python loop mutates up to the first failing key and then raises; the
`Bool` is `false` on that raise and the returned store is the partial state. -/
def applyChanges : StoreD → Changes → StoreD × Bool
  | s, [] => (s, true)
  | s, (k, (old, new)) :: rest =>
    if dget s k = old then applyChanges (dset s k new) rest else (s, false)

/-- Embeds `FakeStore.rollback`: a key holding `new` is reset to `old`, a key already
holding `old` is skipped, anything else raises (`Bool` = `false`, partial
store returned). -/
def rollbackChanges : StoreD → Changes → StoreD × Bool
  | s, [] => (s, true)
  | s, (k, (old, new)) :: rest =>
    if dget s k = new then rollbackChanges (dset s k old) rest
    else if dget s k = old then rollbackChanges s rest
    else (s, false)

/-- The reversed change-set built by `undo`:
`{key: (new, old) for key, (old, new) in changes.items()}`. -/
def cswap (c : Changes) : Changes :=
  c.map (fun kv => (kv.1, (kv.2.2, kv.2.1)))

/-- One record of the operation log (`class Operation`).  Fields that the
Python constructor defaults to `None` (`prev_idx`, `linear_idx`, `changes`,
`prepare_idx`) are `Option`s; `redos` defaults to the empty sequence. -/
structure Operation where
  kind : Kind
  description : String
  date : Nat
  n : Nat
  linear_idx : Option Nat
  prev_idx : Option Nat
  state : StateMap
  redos : List (Nat × Nat)
  changes : Option Changes
  prepare_idx : Option Nat
deriving DecidableEq, Repr

/-- The engine's mutable pair (`self.log`, `self.store`). -/
structure Engine where
  log : List Operation
  store : StoreD
deriving DecidableEq, Repr

/-- The exceptions an engine method can propagate: a user error (raised before
anything is written) or a store-synchronisation failure during apply/rollback. -/
inductive Err where
  | userError
  | storeError
deriving DecidableEq, Repr

/-- Post-state of an engine method together with the exception it raised, if
any (Python mutations performed before a raise persist). -/
structure Res where
  engine : Engine
  error : Option Err
deriving DecidableEq, Repr

/-- Embeds `FakeLog.top()`: index and value of the last record; raises on an empty
log (embedded as `none`). -/
def listTop (l : List Operation) : Option (Nat × Operation) :=
  match l.getLast? with
  | none => none
  | some op => some (l.length - 1, op)

/-- Python list indexing with negative offsets, `l[n]`, as used by
`top.redos[n]` in `redo`. -/
def pyIdx (l : List (Nat × Nat)) (n : Int) : Option (Nat × Nat) :=
  if n < 0 then l.get? (l.length - (-n).toNat) else l.get? n.toNat

namespace OpLog

/-- The `commit-init` record built by `OpLog.init`. -/
def initRec (state : StateMap) (date : Nat) : Operation :=
  { kind := .commitInit, description := "", date := date, n := 0,
    linear_idx := some 0, prev_idx := none, state := state, redos := [],
    changes := none, prepare_idx := none }

/-- Embeds `OpLog.init`: append the `commit-init` record only when `next_idx() == 0`. -/
def init (e : Engine) (state : StateMap) (date : Nat) : Engine :=
  if e.log.length = 0 then { log := e.log ++ [initRec state date], store := e.store } else e

/-- The synthetic `rollback-*` record appended by `recover`; it clones
`prev = log.get(top.prev_idx)`. -/
def recoverRollback (top : Operation) (prev : Operation) (top_idx date : Nat) : Operation :=
  { kind := top.kind.toRollback, description := top.description, date := date,
    n := prev.n, prev_idx := prev.prev_idx, linear_idx := prev.linear_idx,
    redos := prev.redos, state := prev.state,
    changes := none, prepare_idx := some top_idx }

/-- Embeds `OpLog.recover`: if the tip is a `prepare-*`, roll the store back by the
tip's change-set and append a `rollback-*` record cloning
`log.get(top.prev_idx)`. -/
def recover (e : Engine) (date : Nat) : Option Res :=
  match listTop e.log with
  | none => none
  | some (top_idx, top) =>
    if ¬ top.kind.isPrepare then some { engine := e, error := none }
    else
      match top.prev_idx with
      | none => none
      | some pidx =>
        match e.log.get? pidx with
        | none => none
        | some prev =>
          match top.changes with
          | none => none
          | some changes =>
            match rollbackChanges e.store changes with
            | (s', true) =>
              some { engine := { log := e.log ++ [recoverRollback top prev top_idx date],
                                 store := s' },
                     error := none }
            | (s', false) =>
              some { engine := { log := e.log, store := s' }, error := some .storeError }

/-- The `prepare_entry` built in `OpLog.do`. -/
def doPrepare (description : String) (date : Nat) (top_idx : Nat) (top : Operation)
    (state : StateMap) (changes : Changes) : Operation :=
  { kind := .prepareDo, description := description, date := date,
    n := top.n + 1, prev_idx := some top_idx, linear_idx := none,
    state := state, redos := [], changes := some changes, prepare_idx := none }

/-- The `commit_entry` built in `OpLog.do`. -/
def doCommit (description : String) (date : Nat) (top_idx : Nat) (top : Operation)
    (state : StateMap) (linear_idx prepare_idx : Nat) : Operation :=
  { kind := .commitDo, description := description, date := date,
    n := top.n + 1, prev_idx := some top_idx, linear_idx := some linear_idx,
    state := state, redos := [], changes := none, prepare_idx := some prepare_idx }

/-- The `rollback_entry` built in `OpLog.do`: clones the pre-operation tip. -/
def doRollback (description : String) (date : Nat) (top : Operation)
    (prepare_idx : Nat) : Operation :=
  { kind := .rollbackDo, description := description, date := date,
    n := top.n, prev_idx := top.prev_idx, linear_idx := top.linear_idx,
    redos := top.redos, state := top.state,
    changes := none, prepare_idx := some prepare_idx }

/-- Embeds `OpLog.do` after the transaction body has produced its change-set and new
state: append `prepare-do`, apply the changes, then append `commit-do` on
success or (after a best-effort store rollback) `rollback-do` on failure.  If
the store rollback itself fails, nothing further is appended and the failure
propagates. -/
def doAct (e : Engine) (description : String) (changes : Changes) (state : StateMap)
    (date : Nat) : Option Res :=
  match listTop e.log with
  | none => none
  | some (top_idx, top) =>
    let prepare_idx := e.log.length
    let log1 := e.log ++ [doPrepare description date top_idx top state changes]
    let linear_idx := log1.length
    match applyChanges e.store changes with
    | (s', true) =>
      some { engine := { log := log1 ++
                           [doCommit description date top_idx top state linear_idx prepare_idx],
                         store := s' },
             error := none }
    | (s', false) =>
      match rollbackChanges s' changes with
      | (s'', true) =>
        some { engine := { log := log1 ++ [doRollback description date top prepare_idx],
                           store := s'' },
               error := some .storeError }
      | (s'', false) =>
        some { engine := { log := log1, store := s'' }, error := some .storeError }

/-- The `prepare_entry` built in `OpLog.undo`: impersonates `old_prev`. -/
def undoPrepare (description : String) (date : Nat) (old_prev : Operation)
    (undo_changes : Changes) : Operation :=
  { kind := .prepareUndo, description := description, date := date,
    n := old_prev.n, linear_idx := old_prev.linear_idx, prev_idx := old_prev.prev_idx,
    state := old_prev.state, redos := [],
    changes := some undo_changes, prepare_idx := none }

/-- The `commit_entry` built in `OpLog.undo`: impersonates `old_prev` and publishes the
updated redo set. -/
def undoCommit (description : String) (date : Nat) (old_prev : Operation)
    (new_redos : List (Nat × Nat)) (prepare_idx : Nat) : Operation :=
  { kind := .commitUndo, description := description, date := date,
    n := old_prev.n, linear_idx := old_prev.linear_idx, prev_idx := old_prev.prev_idx,
    redos := new_redos, state := old_prev.state,
    changes := none, prepare_idx := some prepare_idx }

/-- The `rollback_entry` built in `OpLog.undo`: clones the pre-operation tip. -/
def undoRollback (description : String) (date : Nat) (top : Operation)
    (prepare_idx : Nat) : Operation :=
  { kind := .rollbackUndo, description := description, date := date,
    n := top.n, prev_idx := top.prev_idx, linear_idx := top.linear_idx,
    redos := top.redos, state := top.state,
    changes := none, prepare_idx := some prepare_idx }

/-- The redo-set update in `OpLog.undo`: the predecessor's entries, minus any
entry for the action being undone, plus `(top.linear_idx, top_idx)`. -/
def newRedos (old_prev : Operation) (li top_idx : Nat) : List (Nat × Nat) :=
  (old_prev.redos.filter (fun r => r.1 ≠ li)) ++ [(li, top_idx)]

/-- Embeds `OpLog.undo`: fail on an empty linear history, otherwise reverse the
change-set of the action at `top.linear_idx` and impersonate
`log.get(top.prev_idx)` in the two-phase write. -/
def undo (e : Engine) (date : Nat) : Option Res :=
  match listTop e.log with
  | none => none
  | some (top_idx, top) =>
    if top.linear_idx = some 0 then some { engine := e, error := some .userError }
    else
      match top.linear_idx with
      | none => none
      | some li =>
        match e.log.get? li with
        | none => none
        | some to_undo =>
          match to_undo.prepare_idx with
          | none => none
          | some p_idx =>
            match e.log.get? p_idx with
            | none => none
            | some prepRec =>
              match prepRec.changes with
              | none => none
              | some changes =>
                let undo_changes := cswap changes
                match top.prev_idx with
                | none => none
                | some old_prev_idx =>
                  match e.log.get? old_prev_idx with
                  | none => none
                  | some old_prev =>
                    let prepare_idx := e.log.length
                    let log1 := e.log ++
                      [undoPrepare to_undo.description date old_prev undo_changes]
                    match applyChanges e.store undo_changes with
                    | (s', true) =>
                      some { engine :=
                               { log := log1 ++
                                   [undoCommit to_undo.description date old_prev
                                     (newRedos old_prev li top_idx) prepare_idx],
                                 store := s' },
                             error := none }
                    | (s', false) =>
                      match rollbackChanges s' undo_changes with
                      | (s'', true) =>
                        some { engine :=
                                 { log := log1 ++
                                     [undoRollback to_undo.description date top prepare_idx],
                                   store := s'' },
                               error := some .storeError }
                      | (s'', false) =>
                        some { engine := { log := log1, store := s'' },
                               error := some .storeError }

/-- The `prepare_entry` built in `OpLog.redo`. -/
def redoPrepare (description : String) (date : Nat) (top_idx : Nat) (top : Operation)
    (redo_linear_idx : Nat) (redo_entry : Operation) (changes : Changes) : Operation :=
  { kind := .prepareRedo, description := description, date := date,
    n := top.n + 1, linear_idx := some redo_linear_idx, prev_idx := some top_idx,
    state := redo_entry.state, redos := [],
    changes := some changes, prepare_idx := none }

/-- The `commit_entry` built in `OpLog.redo`: restores the state and redo set captured
by `redo_entry`. -/
def redoCommit (description : String) (date : Nat) (top_idx : Nat) (top : Operation)
    (redo_linear_idx : Nat) (redo_entry : Operation) (prepare_idx : Nat) : Operation :=
  { kind := .commitRedo, description := description, date := date,
    n := top.n + 1, linear_idx := some redo_linear_idx, prev_idx := some top_idx,
    redos := redo_entry.redos, state := redo_entry.state,
    changes := none, prepare_idx := some prepare_idx }

/-- The `rollback_entry` built in `OpLog.redo`: clones the pre-operation tip. -/
def redoRollback (description : String) (date : Nat) (top : Operation)
    (prepare_idx : Nat) : Operation :=
  { kind := .rollbackRedo, description := description, date := date,
    n := top.n, prev_idx := top.prev_idx, linear_idx := top.linear_idx,
    redos := top.redos, state := top.state,
    changes := none, prepare_idx := some prepare_idx }

/-- Embeds `OpLog.redo(n)`: fail on an empty redo set or out-of-range `n`, otherwise
select `top.redos[n]`, reuse the original forward change-set, and restore the
state and redo set captured by the record the redo entry points at. -/
def redo (e : Engine) (n : Int) (date : Nat) : Option Res :=
  match listTop e.log with
  | none => none
  | some (top_idx, top) =>
    let top_redos := top.redos
    if top_redos.length = 0 then some { engine := e, error := some .userError }
    else if n < -(top_redos.length : Int) ∨ n ≥ (top_redos.length : Int) then
      some { engine := e, error := some .userError }
    else
      match pyIdx top_redos n with
      | none => none
      | some (redo_linear_idx, redo_idx) =>
        match e.log.get? redo_linear_idx with
        | none => none
        | some redo_of =>
          match redo_of.prepare_idx with
          | none => none
          | some p_idx =>
            match e.log.get? p_idx with
            | none => none
            | some prepRec =>
              match prepRec.changes with
              | none => none
              | some changes =>
                match e.log.get? redo_idx with
                | none => none
                | some redo_entry =>
                  let prepare_idx := e.log.length
                  let log1 := e.log ++
                    [redoPrepare redo_of.description date top_idx top redo_linear_idx
                      redo_entry changes]
                  match applyChanges e.store changes with
                  | (s', true) =>
                    some { engine :=
                             { log := log1 ++
                                 [redoCommit redo_of.description date top_idx top
                                   redo_linear_idx redo_entry prepare_idx],
                               store := s' },
                           error := none }
                  | (s', false) =>
                    match rollbackChanges s' changes with
                    | (s'', true) =>
                      some { engine :=
                               { log := log1 ++
                                   [redoRollback redo_of.description date top prepare_idx],
                                 store := s'' },
                             error := some .storeError }
                    | (s'', false) =>
                      some { engine := { log := log1, store := s'' },
                             error := some .storeError }

/-- The `while top.linear_idx > 0` walk of `linear_history`, fuelled by the
log length; each record it touches is obtained by a successful `get`. -/
def linHistAux (log : List Operation) : Nat → Operation → Option (List (Nat × String))
  | 0, _ => none
  | fuel + 1, top =>
    match top.linear_idx with
    | none => none
    | some l =>
      if 0 < l then
        match log.get? l with
        | none => none
        | some lin =>
          match top.prev_idx with
          | none => none
          | some p =>
            match log.get? p with
            | none => none
            | some prev =>
              (linHistAux log fuel prev).map (fun out => (top.date, lin.description) :: out)
      else some []

/-- Embeds `OpLog.linear_history`: the user-visible stack, oldest first; each entry
pairs the walk record's date with the original `commit-do`'s description.
(The Python builds the list newest-first and reverses it at the end; the
fuelled walk here conses newest-first and the reversal is identical.) -/
def linear_history (log : List Operation) : Option (List (Nat × String)) :=
  match listTop log with
  | none => none
  | some (top_idx, top) =>
    if top_idx = 0 ∨ top.linear_idx = some 0 then some []
    else (linHistAux log log.length top).map List.reverse

/-- The backward walk of `compact`: fill the dense positional list
`entries[top.n - 1] := top` while `top.linear_idx > 0`, returning the filled
list together with the record the walk stopped at.  (`List.set` ignores an
out-of-range index where the Python list assignment would fault or wrap a
negative index; under the chain hypotheses of the theorems every write is in
range.) -/
def walkEntries (log : List Operation) :
    Nat → Operation → List (Option Operation) → Option (List (Option Operation) × Operation)
  | 0, _, _ => none
  | fuel + 1, top, entries =>
    match top.linear_idx with
    | none => none
    | some l =>
      if 0 < l then
        match top.prev_idx with
        | none => none
        | some p =>
          match log.get? p with
          | none => none
          | some prev => walkEntries log fuel prev (entries.set (top.n - 1) (some top))
      else some (entries, top)

/-- The `prepare_entry` emitted into the new log by `compact`. -/
def compactPrepare (top linear_top prepare : Operation) (prev_idx : Nat) : Operation :=
  { kind := .prepareDo, description := linear_top.description, date := top.date,
    n := prepare.n, prev_idx := some prev_idx, linear_idx := none,
    state := top.state, redos := [],
    changes := prepare.changes, prepare_idx := none }

/-- The `commit_entry` emitted into the new log by `compact`. -/
def compactCommit (top linear_top : Operation) (linear_idx prev_idx prepare_idx : Nat) :
    Operation :=
  { kind := .commitDo, description := linear_top.description, date := top.date,
    n := top.n, linear_idx := some linear_idx, prev_idx := some prev_idx,
    state := top.state, redos := [],
    changes := none, prepare_idx := some prepare_idx }

/-- The `commit-close` record appended to the old log by `compact`; `top`
here is the final value of the loop variable. -/
def compactClose (top : Operation) (linear_idx date : Nat) : Operation :=
  { kind := .commitClose, description := "", date := date,
    n := top.n + 1, linear_idx := some linear_idx,
    prev_idx := top.prev_idx, state := top.state, redos := [],
    changes := none, prepare_idx := none }

/-- The `for top in entries` loop of `compact`: for each collected entry emit
a fresh `prepare-do` / `commit-do` pair into the new log, chaining `prev_idx`
through the emitted commits.  Returns the new log, the final value of the
loop variable `top`, and the final `prev_idx`. -/
def emitLoop (log : List Operation) :
    List (Option Operation) → Operation → List Operation → Nat →
    Option (List Operation × Operation × Nat)
  | [], curTop, nl, prev_idx => some (nl, curTop, prev_idx)
  | none :: _, _, _, _ => none
  | some top :: rest, _, nl, prev_idx =>
    match top.linear_idx with
    | none => none
    | some l =>
      match log.get? l with
      | none => none
      | some linear_top =>
        match linear_top.prepare_idx with
        | none => none
        | some pi =>
          match log.get? pi with
          | none => none
          | some prepare =>
            let prepare_idx := nl.length
            let nl1 := nl ++ [compactPrepare top linear_top prepare prev_idx]
            let linear_idx := nl1.length
            emitLoop log rest top
              (nl1 ++ [compactCommit top linear_top linear_idx prev_idx prepare_idx])
              linear_idx

/-- Embeds `OpLog.compact(new_log)`: copy the `commit-init` record, replay the
current linear history as fresh `prepare-do` / `commit-do` pairs, seal the
old log with a `commit-close`, and switch the engine to the new log.  Returns
the sealed old log together with the switched engine. -/
def compact (e : Engine) (date : Nat) : Option (List Operation × Engine) :=
  match listTop e.log with
  | none => none
  | some (top_idx, top) =>
    match e.log.get? 0 with
    | none => none
    | some initRec0 =>
      let nl0 := [initRec0]
      if top_idx = 0 ∨ top.linear_idx = some 0 then
        some (e.log, { log := nl0, store := e.store })
      else
        match walkEntries e.log e.log.length top (List.replicate top.n none) with
        | none => none
        | some (entries, term) =>
          match emitLoop e.log entries term nl0 0 with
          | none => none
          | some (nl', lastTop, _) =>
            some (e.log ++ [compactClose lastTop e.log.length date],
                  { log := nl', store := e.store })

end OpLog

/-! ### Store-level lemmas: the dict operations and change-set application -/

/-- Lookup of a key in a change-set (first entry wins, like a Python dict). -/
def clookup : Changes → String → Option (Option String × Option String)
  | [], _ => none
  | (k', p) :: rest, k => if k' = k then some p else clookup rest k

/-- The keys of a change-set, in order. -/
def ckeys : Changes → List String
  | [] => []
  | (k, _) :: rest => k :: ckeys rest

theorem dget_dset_self (s : StoreD) (k : String) (v : Option String) :
    dget (dset s k v) k = v := by
  induction s with
  | nil => simp [dget, dset]
  | cons hd tl ih =>
    obtain ⟨k', v'⟩ := hd
    by_cases h : k' = k
    · subst h; simp [dget, dset]
    · simp [dget, dset, h, ih]

theorem dget_dset_ne (s : StoreD) (k k' : String) (v : Option String) (h : k' ≠ k) :
    dget (dset s k' v) k = dget s k := by
  induction s with
  | nil => simp [dget, dset, h]
  | cons hd tl ih =>
    obtain ⟨k₀, v₀⟩ := hd
    by_cases h0 : k₀ = k'
    · subst h0; simp [dget, dset, h]
    · by_cases h1 : k₀ = k
      · subst h1; simp [dget, dset, h0]
      · simp [dget, dset, h0, h1, ih]

theorem clookup_eq_none (c : Changes) (k : String) :
    clookup c k = none ↔ k ∉ ckeys c := by
  induction c with
  | nil => simp [clookup, ckeys]
  | cons hd tl ih =>
    obtain ⟨k', p⟩ := hd
    by_cases h : k' = k
    · subst h; simp [clookup, ckeys]
    · simp only [clookup, if_neg h, ckeys, List.mem_cons, not_or, ih]
      exact ⟨fun hn => ⟨fun hk => h hk.symm, hn⟩, fun hp => hp.2⟩

theorem applyChanges_not_mem (c : Changes) (s : StoreD) (k : String)
    (h : clookup c k = none) : dget (applyChanges s c).1 k = dget s k := by
  induction c generalizing s with
  | nil => rfl
  | cons hd rest ih =>
    obtain ⟨k', o, n⟩ := hd
    have hne : ¬ k' = k := by
      intro hk
      rw [clookup, if_pos hk] at h
      exact Option.noConfusion h
    have hrest : clookup rest k = none := by
      simpa only [clookup, if_neg hne] using h
    by_cases hc : dget s k' = o
    · simp only [applyChanges, if_pos hc]
      rw [ih (dset s k' n) hrest]
      exact dget_dset_ne s k k' n hne
    · simp only [applyChanges, if_neg hc]

theorem applyChanges_pre (c : Changes) (s s₁ : StoreD)
    (h : applyChanges s c = (s₁, true)) (k : String) (o n : Option String)
    (hl : clookup c k = some (o, n)) : dget s k = o := by
  induction c generalizing s with
  | nil => simp [clookup] at hl
  | cons hd rest ih =>
    obtain ⟨k', o', n'⟩ := hd
    by_cases hc : dget s k' = o'
    · simp only [applyChanges, if_pos hc] at h
      by_cases hk : k' = k
      · subst hk
        rw [clookup, if_pos rfl, Option.some.injEq, Prod.mk.injEq] at hl
        rw [hc, hl.1]
      · rw [clookup, if_neg hk] at hl
        have := ih (dset s k' n') h hl
        rwa [dget_dset_ne s k k' n' hk] at this
    · simp only [applyChanges, if_neg hc, Prod.mk.injEq] at h
      exact absurd h.2 (by simp)

theorem applyChanges_post (c : Changes) (s s₁ : StoreD)
    (hnd : (ckeys c).Nodup) (h : applyChanges s c = (s₁, true)) (k : String) :
    dget s₁ k = (match clookup c k with
                 | some p => p.2
                 | none => dget s k) := by
  induction c generalizing s with
  | nil =>
    simp only [applyChanges, Prod.mk.injEq] at h
    simp [clookup, h.1]
  | cons hd rest ih =>
    obtain ⟨k', o', n'⟩ := hd
    have hnd2 := (List.nodup_cons.mp (by simpa [ckeys] using hnd))
    by_cases hc : dget s k' = o'
    · simp only [applyChanges, if_pos hc] at h
      by_cases hk : k' = k
      · subst hk
        have hrest : clookup rest k' = none := (clookup_eq_none rest k').mpr hnd2.1
        have h1 : dget s₁ k' = dget (dset s k' n') k' := by
          have := applyChanges_not_mem rest (dset s k' n') k' hrest
          rwa [h] at this
        rw [clookup, if_pos rfl, h1, dget_dset_self]
      · have := ih (dset s k' n') hnd2.2 h
        rw [dget_dset_ne s k k' n' hk] at this
        rw [clookup, if_neg hk]
        exact this
    · simp only [applyChanges, if_neg hc, Prod.mk.injEq] at h
      exact absurd h.2 (by simp)

theorem applyChanges_ok (c : Changes) (s : StoreD) (hnd : (ckeys c).Nodup)
    (hpre : ∀ k o n, clookup c k = some (o, n) → dget s k = o) :
    ∃ s₁, applyChanges s c = (s₁, true) := by
  induction c generalizing s with
  | nil => exact ⟨s, rfl⟩
  | cons hd rest ih =>
    obtain ⟨k', o', n'⟩ := hd
    have hc : dget s k' = o' := hpre k' o' n' (by rw [clookup, if_pos rfl])
    have hnd2 := (List.nodup_cons.mp (by simpa [ckeys] using hnd))
    have hpre' : ∀ k o n, clookup rest k = some (o, n) → dget (dset s k' n') k = o := by
      intro k o n hl
      have hkne : k' ≠ k := by
        intro hk; subst hk
        exact hnd2.1 (by
          by_contra hmem
          rw [(clookup_eq_none rest k').mpr hmem] at hl
          exact Option.noConfusion hl)
      rw [dget_dset_ne s k k' n' hkne]
      exact hpre k o n (by rwa [clookup, if_neg hkne])
    obtain ⟨s₁, hs₁⟩ := ih (dset s k' n') hnd2.2 hpre'
    exact ⟨s₁, by simp only [applyChanges, if_pos hc]; exact hs₁⟩

theorem ckeys_cswap (c : Changes) : ckeys (cswap c) = ckeys c := by
  induction c with
  | nil => rfl
  | cons hd tl ih =>
    obtain ⟨k, o, n⟩ := hd
    simp only [cswap, List.map_cons, ckeys] at ih ⊢
    rw [ih]

theorem clookup_cswap (c : Changes) (k : String) :
    clookup (cswap c) k = (clookup c k).map (fun p => (p.2, p.1)) := by
  induction c with
  | nil => simp [clookup, cswap]
  | cons hd tl ih =>
    obtain ⟨k', o, n⟩ := hd
    by_cases h : k' = k
    · subst h; simp [clookup, cswap]
    · simp only [cswap, List.map_cons, clookup, if_neg h] at ih ⊢
      exact ih

theorem cswap_cswap (c : Changes) : cswap (cswap c) = c := by
  induction c with
  | nil => rfl
  | cons hd tl ih =>
    obtain ⟨k, o, n⟩ := hd
    simp only [cswap, List.map_cons] at ih ⊢
    rw [ih]

/-- Applying a change-set and then its reverse restores every key's
observable value, and the reverse application cannot fail. -/
theorem apply_cswap_restore (c : Changes) (s s₁ : StoreD) (hnd : (ckeys c).Nodup)
    (h : applyChanges s c = (s₁, true)) :
    ∃ s₂, applyChanges s₁ (cswap c) = (s₂, true) ∧ ∀ k, dget s₂ k = dget s k := by
  have hnd' : (ckeys (cswap c)).Nodup := by rwa [ckeys_cswap]
  have hpre : ∀ k o n, clookup (cswap c) k = some (o, n) → dget s₁ k = o := by
    intro k o n hl
    rw [clookup_cswap] at hl
    match hcl : clookup c k with
    | none => rw [hcl] at hl; exact Option.noConfusion hl
    | some (o₀, n₀) =>
      rw [hcl] at hl
      simp only [Option.map_some', Option.some.injEq, Prod.mk.injEq] at hl
      have hpost := applyChanges_post c s s₁ hnd h k
      rw [hcl] at hpost
      rw [hpost]
      exact hl.1
  obtain ⟨s₂, hs₂⟩ := applyChanges_ok (cswap c) s₁ hnd' hpre
  refine ⟨s₂, hs₂, ?_⟩
  intro k
  have hpost := applyChanges_post (cswap c) s₁ s₂ hnd' hs₂ k
  rw [clookup_cswap] at hpost
  match hcl : clookup c k with
  | none =>
    rw [hcl] at hpost
    simp only [Option.map_none'] at hpost
    have hpost0 := applyChanges_post c s s₁ hnd h k
    rw [hcl] at hpost0
    rw [hpost, hpost0]
  | some (o₀, n₀) =>
    rw [hcl] at hpost
    simp only [Option.map_some'] at hpost
    rw [hpost]
    exact (applyChanges_pre c s s₁ h k o₀ n₀ hcl).symm

/-! ### Log-level helper lemmas -/

theorem listTop_concat (l : List Operation) (a : Operation) :
    listTop (l ++ [a]) = some (l.length, a) := by
  simp [listTop, List.getLast?_concat]

theorem listTop_get? (l : List Operation) (t : Nat) (top : Operation)
    (h : listTop l = some (t, top)) : l.get? t = some top ∧ t + 1 = l.length := by
  unfold listTop at h
  match hl : l.getLast? with
  | none => rw [hl] at h; exact Option.noConfusion h
  | some op =>
    rw [hl] at h
    simp only [Option.some.injEq, Prod.mk.injEq] at h
    obtain ⟨ht, hop⟩ := h
    subst ht; subst hop
    have hne : l ≠ [] := by
      intro he; subst he; simp at hl
    have hpos : 0 < l.length := List.length_pos.mpr hne
    constructor
    · rw [List.get?_eq_getElem?, ← List.getLast?_eq_getElem?]; exact hl
    · exact Nat.succ_pred_eq_of_pos hpos

theorem listTop_mem (l : List Operation) (t : Nat) (top : Operation)
    (h : listTop l = some (t, top)) : top ∈ l :=
  List.get?_mem (listTop_get? l t top h).1

/-! ### Per-operation characterisation lemmas -/

namespace OpLog

theorem doAct_ok (e : Engine) (desc : String) (c : Changes) (st : StateMap)
    (d t : Nat) (top : Operation) (s₁ : StoreD)
    (htop : listTop e.log = some (t, top))
    (happ : applyChanges e.store c = (s₁, true)) :
    doAct e desc c st d =
      some { engine := { log := (e.log ++ [doPrepare desc d t top st c]) ++
                           [doCommit desc d t top st (e.log.length + 1) e.log.length],
                         store := s₁ },
             error := none } := by
  unfold doAct
  rw [htop, happ]
  simp [List.length_append]

theorem doAct_fail (e : Engine) (desc : String) (c : Changes) (st : StateMap)
    (d t : Nat) (top : Operation) (s₁ s₂ : StoreD)
    (htop : listTop e.log = some (t, top))
    (happ : applyChanges e.store c = (s₁, false))
    (hrb : rollbackChanges s₁ c = (s₂, true)) :
    doAct e desc c st d =
      some { engine := { log := (e.log ++ [doPrepare desc d t top st c]) ++
                           [doRollback desc d top e.log.length],
                         store := s₂ },
             error := some .storeError } := by
  unfold doAct
  simp [htop, happ, hrb]

theorem undo_ok (e : Engine) (d t li pidx opi : Nat)
    (top to_undo prepRec old_prev : Operation) (c : Changes) (s₁ : StoreD)
    (htop : listTop e.log = some (t, top))
    (hli : top.linear_idx = some li)
    (hli0 : li ≠ 0)
    (hget : e.log.get? li = some to_undo)
    (hpi : to_undo.prepare_idx = some pidx)
    (hgetp : e.log.get? pidx = some prepRec)
    (hch : prepRec.changes = some c)
    (hprev : top.prev_idx = some opi)
    (hgetprev : e.log.get? opi = some old_prev)
    (happ : applyChanges e.store (cswap c) = (s₁, true)) :
    undo e d =
      some { engine := { log := (e.log ++ [undoPrepare to_undo.description d old_prev (cswap c)]) ++
                           [undoCommit to_undo.description d old_prev
                             (newRedos old_prev li t) e.log.length],
                         store := s₁ },
             error := none } := by
  unfold undo
  have hget2 : e.log[li]? = some to_undo := by rw [← List.get?_eq_getElem?]; exact hget
  have hgetp2 : e.log[pidx]? = some prepRec := by rw [← List.get?_eq_getElem?]; exact hgetp
  have hgetprev2 : e.log[opi]? = some old_prev := by
    rw [← List.get?_eq_getElem?]; exact hgetprev
  simp [htop, hli, hli0, hget2, hpi, hgetp2, hch, hprev, hgetprev2, happ]

theorem undo_fail (e : Engine) (d t li pidx opi : Nat)
    (top to_undo prepRec old_prev : Operation) (c : Changes) (s₁ s₂ : StoreD)
    (htop : listTop e.log = some (t, top))
    (hli : top.linear_idx = some li)
    (hli0 : li ≠ 0)
    (hget : e.log.get? li = some to_undo)
    (hpi : to_undo.prepare_idx = some pidx)
    (hgetp : e.log.get? pidx = some prepRec)
    (hch : prepRec.changes = some c)
    (hprev : top.prev_idx = some opi)
    (hgetprev : e.log.get? opi = some old_prev)
    (happ : applyChanges e.store (cswap c) = (s₁, false))
    (hrb : rollbackChanges s₁ (cswap c) = (s₂, true)) :
    undo e d =
      some { engine := { log := (e.log ++ [undoPrepare to_undo.description d old_prev (cswap c)]) ++
                           [undoRollback to_undo.description d top e.log.length],
                         store := s₂ },
             error := some .storeError } := by
  unfold undo
  have hget2 : e.log[li]? = some to_undo := by rw [← List.get?_eq_getElem?]; exact hget
  have hgetp2 : e.log[pidx]? = some prepRec := by rw [← List.get?_eq_getElem?]; exact hgetp
  have hgetprev2 : e.log[opi]? = some old_prev := by
    rw [← List.get?_eq_getElem?]; exact hgetprev
  simp [htop, hli, hli0, hget2, hpi, hgetp2, hch, hprev, hgetprev2, happ, hrb]

theorem undo_empty (e : Engine) (d t : Nat) (top : Operation)
    (htop : listTop e.log = some (t, top))
    (h0 : top.linear_idx = some 0) :
    undo e d = some { engine := e, error := some .userError } := by
  unfold undo
  simp [htop, h0]

theorem redo_ok (e : Engine) (nn : Int) (d t rli ridx pidx : Nat)
    (top redo_of prepRec redo_entry : Operation) (c : Changes) (s₁ : StoreD)
    (htop : listTop e.log = some (t, top))
    (hne : ¬ top.redos.length = 0)
    (hrange : ¬ (nn < -(top.redos.length : Int) ∨ nn ≥ (top.redos.length : Int)))
    (hsel : pyIdx top.redos nn = some (rli, ridx))
    (hget : e.log.get? rli = some redo_of)
    (hpi : redo_of.prepare_idx = some pidx)
    (hgetp : e.log.get? pidx = some prepRec)
    (hch : prepRec.changes = some c)
    (hentry : e.log.get? ridx = some redo_entry)
    (happ : applyChanges e.store c = (s₁, true)) :
    redo e nn d =
      some { engine := { log := (e.log ++
                           [redoPrepare redo_of.description d t top rli redo_entry c]) ++
                           [redoCommit redo_of.description d t top rli redo_entry e.log.length],
                         store := s₁ },
             error := none } := by
  unfold redo
  have hget2 : e.log[rli]? = some redo_of := by rw [← List.get?_eq_getElem?]; exact hget
  have hgetp2 : e.log[pidx]? = some prepRec := by rw [← List.get?_eq_getElem?]; exact hgetp
  have hentry2 : e.log[ridx]? = some redo_entry := by
    rw [← List.get?_eq_getElem?]; exact hentry
  rw [htop]
  simp [hne, hrange, hsel, hget2, hpi, hgetp2, hch, hentry2, happ]

theorem redo_fail (e : Engine) (nn : Int) (d t rli ridx pidx : Nat)
    (top redo_of prepRec redo_entry : Operation) (c : Changes) (s₁ s₂ : StoreD)
    (htop : listTop e.log = some (t, top))
    (hne : ¬ top.redos.length = 0)
    (hrange : ¬ (nn < -(top.redos.length : Int) ∨ nn ≥ (top.redos.length : Int)))
    (hsel : pyIdx top.redos nn = some (rli, ridx))
    (hget : e.log.get? rli = some redo_of)
    (hpi : redo_of.prepare_idx = some pidx)
    (hgetp : e.log.get? pidx = some prepRec)
    (hch : prepRec.changes = some c)
    (hentry : e.log.get? ridx = some redo_entry)
    (happ : applyChanges e.store c = (s₁, false))
    (hrb : rollbackChanges s₁ c = (s₂, true)) :
    redo e nn d =
      some { engine := { log := (e.log ++
                           [redoPrepare redo_of.description d t top rli redo_entry c]) ++
                           [redoRollback redo_of.description d top e.log.length],
                         store := s₂ },
             error := some .storeError } := by
  unfold redo
  have hget2 : e.log[rli]? = some redo_of := by rw [← List.get?_eq_getElem?]; exact hget
  have hgetp2 : e.log[pidx]? = some prepRec := by rw [← List.get?_eq_getElem?]; exact hgetp
  have hentry2 : e.log[ridx]? = some redo_entry := by
    rw [← List.get?_eq_getElem?]; exact hentry
  rw [htop]
  simp [hne, hrange, hsel, hget2, hpi, hgetp2, hch, hentry2, happ, hrb]

theorem redo_err (e : Engine) (nn : Int) (d t : Nat) (top : Operation)
    (htop : listTop e.log = some (t, top))
    (herr : top.redos.length = 0 ∨ nn < -(top.redos.length : Int) ∨
            nn ≥ (top.redos.length : Int)) :
    redo e nn d = some { engine := e, error := some .userError } := by
  unfold redo
  rcases herr with h | h
  · simp [htop, h]
  · by_cases h0 : top.redos.length = 0
    · simp [htop, h0]
    · simp [htop, h0, h]

end OpLog

theorem lt_of_get?_some (l : List Operation) (i : Nat) (a : Operation)
    (h : l.get? i = some a) : i < l.length := by
  by_contra hlt
  rw [List.get?_eq_none.mpr (Nat.le_of_not_lt hlt)] at h
  exact Option.noConfusion h

/-- Reads at indices inside the old log are unchanged by appending records. -/
theorem get?_append_sub (l l2 : List Operation) (i : Nat) (h : i < l.length) :
    (l ++ l2).get? i = l.get? i := by
  rw [List.get?_eq_getElem?, List.get?_eq_getElem?]
  exact List.getElem?_append_left h

/-- Reading the freshly appended record at the old length. -/
theorem get?_concat_len {A : Type} (l : List A) (a : A) :
    (l ++ [a]).get? l.length = some a := by
  rw [List.get?_eq_getElem?]
  exact List.getElem?_concat_length l a

/-- Mirrors `kind.startswith("commit-")`: a committed record. -/
def Kind.isCommit : Kind → Bool
  | .commitInit => true
  | .commitDo => true
  | .commitUndo => true
  | .commitRedo => true
  | .commitClose => true
  | _ => false

/-! ### The concrete scenario `do A; do B; undo` (spec scenario 2)

`scenInit`…`scenU` run the engine itself; `rInit`…`cU` are the records those
runs append, used to apply the general theorems at concrete inputs. -/

def scenInit : Engine := OpLog.init { log := [], store := [] } [("s", some "0")] 0

def scenA : Option Res :=
  OpLog.doAct scenInit "A" [("foo", (none, some "A"))] [("s", some "A")] 1

def scenB : Option Res :=
  scenA.bind fun r => OpLog.doAct r.engine "B" [("foo", (some "A", some "B"))] [("s", some "B")] 2

def scenU : Option Res := scenB.bind fun r => OpLog.undo r.engine 3

def rInit : Operation := OpLog.initRec [("s", some "0")] 0

def pA : Operation := OpLog.doPrepare "A" 1 0 rInit [("s", some "A")] [("foo", (none, some "A"))]

def cA : Operation := OpLog.doCommit "A" 1 0 rInit [("s", some "A")] 2 1

def pB : Operation := OpLog.doPrepare "B" 2 2 cA [("s", some "B")] [("foo", (some "A", some "B"))]

def cB : Operation := OpLog.doCommit "B" 2 2 cA [("s", some "B")] 4 3

def pU : Operation := OpLog.undoPrepare "B" 3 cA (cswap [("foo", (some "A", some "B"))])

def cU : Operation := OpLog.undoCommit "B" 3 cA (OpLog.newRedos cA 4 4) 5

/-- The engine state after `init; do A; do B` (log indices 0–4). -/
def eB : Engine := { log := [rInit, pA, cA, pB, cB], store := [("foo", some "B")] }

/-- The engine state after `init; do A; do B; undo` (log indices 0–6). -/
def eU : Engine := { log := [rInit, pA, cA, pB, cB, pU, cU], store := [("foo", some "A")] }

theorem scenB_eq : scenB = some { engine := eB, error := none } := by decide

theorem scenU_eq : scenU = some { engine := eU, error := none } := by decide

/-! ### Claims C10, C8, C2 -/

/-- C10: `init(state)` appends the `commit-init` record only when the log is
empty (`next_idx() == 0`); on a non-empty log it appends nothing and changes
no state, so `init` is idempotent. -/
theorem C10_init_only_when_empty (e : Engine) (s s' : StateMap) (d d' : Nat) :
    (e.log = [] → OpLog.init e s d = { log := [OpLog.initRec s d], store := e.store }) ∧
    (e.log ≠ [] → OpLog.init e s d = e) ∧
    OpLog.init (OpLog.init e s d) s' d' = OpLog.init e s d := by
  refine ⟨?_, ?_, ?_⟩
  · intro h
    simp [OpLog.init, h]
  · intro h
    simp [OpLog.init, List.length_eq_zero, h]
  · by_cases h : e.log.length = 0
    · simp [OpLog.init, h]
    · simp [OpLog.init, h]

/-- Witness for C10 at a concrete input. -/
theorem C10_init_only_when_empty_witness :
    OpLog.init { log := [], store := [] } ([("a", some "1")] : StateMap) 0 =
      { log := [OpLog.initRec [("a", some "1")] 0], store := [] } ∧
    OpLog.init (OpLog.init { log := [], store := [] } ([("a", some "1")] : StateMap) 0)
        [("b", some "2")] 5 =
      OpLog.init { log := [], store := [] } ([("a", some "1")] : StateMap) 0 :=
  ⟨(C10_init_only_when_empty { log := [], store := [] } [("a", some "1")] [("b", some "2")]
      0 5).1 rfl,
   (C10_init_only_when_empty { log := [], store := [] } [("a", some "1")] [("b", some "2")]
      0 5).2.2⟩

/-- C8: `undo` on a tip whose `linear_idx` is 0 raises a user error and
appends nothing; `redo` raises a user error and appends nothing when the
tip's redo set is empty or when `n` lies outside `[-len(redos), len(redos))`.
In both cases the engine (log and store) is returned unchanged. -/
theorem C8_user_errors (e : Engine) (t : Nat) (top : Operation) (nn : Int) (d : Nat)
    (htop : listTop e.log = some (t, top)) :
    (top.linear_idx = some 0 →
      OpLog.undo e d = some { engine := e, error := some .userError }) ∧
    (top.redos = [] ∨ nn < -(top.redos.length : Int) ∨ nn ≥ (top.redos.length : Int) →
      OpLog.redo e nn d = some { engine := e, error := some .userError }) := by
  constructor
  · intro h0
    exact OpLog.undo_empty e d t top htop h0
  · intro herr
    apply OpLog.redo_err e nn d t top htop
    rcases herr with h | h
    · exact Or.inl (by simp [h])
    · exact Or.inr h

/-- Witness for C8: `undo` on the freshly initialised log, and `redo` both on
an empty redo set and with an out-of-range index on the post-undo tip. -/
theorem C8_user_errors_witness :
    OpLog.undo { log := [rInit], store := [] } 7 =
      some { engine := { log := [rInit], store := [] }, error := some .userError } ∧
    OpLog.redo { log := [rInit], store := [] } (-1) 7 =
      some { engine := { log := [rInit], store := [] }, error := some .userError } ∧
    OpLog.redo eU 2 7 = some { engine := eU, error := some .userError } :=
  ⟨(C8_user_errors { log := [rInit], store := [] } 0 rInit (-1) 7 rfl).1 rfl,
   (C8_user_errors { log := [rInit], store := [] } 0 rInit (-1) 7 rfl).2 (Or.inl rfl),
   (C8_user_errors eU 6 cU 2 7 rfl).2 (Or.inr (Or.inr (by decide)))⟩

/-- C2 counterexample: in the scenario `do A {foo:A}; do B {foo:B}; undo`
from an empty store, the `commit-do` of B sits at log index 4 and the
`commit-undo` at index 6, but the tip's redos are `[(4, 4)]`: the second
component is the index of the record that was the tip just before the undo
(commit-do B itself), not the index 6 of the commit-undo the claim predicts. -/
theorem C2_redos_counterexample :
    ((scenU.bind fun r => r.engine.log.get? 4).map Operation.kind = some .commitDo) ∧
    ((scenU.bind fun r => r.engine.log.get? 6).map Operation.kind = some .commitUndo) ∧
    ((scenU.map fun r => (listTop r.engine.log).map fun p => p.2.redos) =
      some (some [(4, 4)])) ∧
    ([((4 : Nat), (4 : Nat))] ≠ [((4 : Nat), (6 : Nat))]) := by
  refine ⟨by decide, by decide, by decide, by decide⟩

/-- C2 (amended): the redo entry appended by each successful undo is
`(L, R)` with `L = top.linear_idx` (the undone action's commit-do index) and
`R = top_idx`, the log index of the record that was the tip immediately
before the undo — not the index of the commit-undo being written; the other
entries are the impersonated predecessor's redos minus any entry for `L`.
In the scenario `do A; do B; undo` the tip's redos are `[(4, 4)]`, both
components being the index of commit-do B. -/
theorem C2_redos_amended (e : Engine) (d t li pidx opi : Nat)
    (top to_undo prepRec old_prev : Operation) (c : Changes) (s₁ : StoreD)
    (htop : listTop e.log = some (t, top))
    (hli : top.linear_idx = some li) (hli0 : li ≠ 0)
    (hget : e.log.get? li = some to_undo)
    (hpi : to_undo.prepare_idx = some pidx)
    (hgetp : e.log.get? pidx = some prepRec)
    (hch : prepRec.changes = some c)
    (hprev : top.prev_idx = some opi)
    (hgetprev : e.log.get? opi = some old_prev)
    (happ : applyChanges e.store (cswap c) = (s₁, true)) :
    ∃ r, OpLog.undo e d = some r ∧ r.error = none ∧
      ((listTop r.engine.log).map fun p => p.2.redos) =
        some ((old_prev.redos.filter (fun pr => pr.1 ≠ li)) ++ [(li, t)]) ∧
      ((scenU.map fun r' => (listTop r'.engine.log).map fun p => p.2.redos) =
        some (some [(4, 4)])) := by
  refine ⟨_, OpLog.undo_ok e d t li pidx opi top to_undo prepRec old_prev c s₁
    htop hli hli0 hget hpi hgetp hch hprev hgetprev happ, rfl, ?_, by decide⟩
  rw [listTop_concat]
  rfl

/-- Witness for C2 (amended) on the concrete scenario engine. -/
theorem C2_redos_amended_witness :
    listTop eB.log = some (4, cB) ∧
    (∃ r, OpLog.undo eB 3 = some r ∧ r.error = none ∧
      ((listTop r.engine.log).map fun p => p.2.redos) =
        some ((cA.redos.filter (fun pr => pr.1 ≠ 4)) ++ [(4, 4)]) ∧
      ((scenU.map fun r' => (listTop r'.engine.log).map fun p => p.2.redos) =
        some (some [(4, 4)]))) :=
  ⟨rfl,
   C2_redos_amended eB 3 4 4 3 2 cB cB pB cA [("foo", (some "A", some "B"))]
     [("foo", some "A")] rfl rfl (by decide) rfl rfl rfl rfl rfl rfl (by decide)⟩

/-! ### Claim C3: do(X) then undo -/

/-- C3: from any engine whose committed tip is `top`, a successful `do(X)`
followed by undo succeeds, restores every key of the store to its pre-`do`
observable value, and produces a tip whose `n`, `linear_idx` and `state`
equal the pre-`do` tip's, whose redos are the pre-`do` tip's plus exactly one
entry for X (both components the new commit-do's index `e.log.length + 1`). -/
theorem C3_do_undo (e : Engine) (desc : String) (c : Changes) (st : StateMap)
    (d d' t : Nat) (top : Operation) (s₁ : StoreD)
    (htop : listTop e.log = some (t, top))
    (_hkind : top.kind.isCommit = true)
    (hnd : (ckeys c).Nodup)
    (happ : applyChanges e.store c = (s₁, true))
    (hredos : ∀ pr ∈ top.redos, pr.1 ≤ e.log.length) :
    ∃ r₁ r₂, OpLog.doAct e desc c st d = some r₁ ∧ r₁.error = none ∧
      OpLog.undo r₁.engine d' = some r₂ ∧ r₂.error = none ∧
      (∃ i tip₂, listTop r₂.engine.log = some (i, tip₂) ∧
        tip₂.n = top.n ∧ tip₂.linear_idx = top.linear_idx ∧ tip₂.state = top.state ∧
        tip₂.redos = top.redos ++ [(e.log.length + 1, e.log.length + 1)]) ∧
      (∀ k, dget r₂.engine.store k = dget e.store k) := by
  have hdo := OpLog.doAct_ok e desc c st d t top s₁ htop happ
  obtain ⟨s₂, happ₂, hrest⟩ := apply_cswap_restore c e.store s₁ hnd happ
  have htp := listTop_get? _ _ _ htop
  have htlt : t < e.log.length := by omega
  have h2 : (e.log ++ [OpLog.doPrepare desc d t top st c]).length = e.log.length + 1 := by
    simp
  have h3 : listTop ((e.log ++ [OpLog.doPrepare desc d t top st c]) ++
      [OpLog.doCommit desc d t top st (e.log.length + 1) e.log.length]) =
      some (e.log.length + 1,
            OpLog.doCommit desc d t top st (e.log.length + 1) e.log.length) := by
    rw [listTop_concat, h2]
  have h4 : ((e.log ++ [OpLog.doPrepare desc d t top st c]) ++
      [OpLog.doCommit desc d t top st (e.log.length + 1) e.log.length]).get?
      (e.log.length + 1) =
      some (OpLog.doCommit desc d t top st (e.log.length + 1) e.log.length) := by
    rw [← h2]
    exact get?_concat_len _ _
  have h5 : ((e.log ++ [OpLog.doPrepare desc d t top st c]) ++
      [OpLog.doCommit desc d t top st (e.log.length + 1) e.log.length]).get?
      e.log.length = some (OpLog.doPrepare desc d t top st c) := by
    rw [get?_append_sub _ _ _ (by simp)]
    exact get?_concat_len _ _
  have h6 : ((e.log ++ [OpLog.doPrepare desc d t top st c]) ++
      [OpLog.doCommit desc d t top st (e.log.length + 1) e.log.length]).get? t =
      some top := by
    rw [get?_append_sub _ _ _ (by simp; omega), get?_append_sub _ _ _ htlt]
    exact htp.1
  have hundo := OpLog.undo_ok
    { log := (e.log ++ [OpLog.doPrepare desc d t top st c]) ++
        [OpLog.doCommit desc d t top st (e.log.length + 1) e.log.length],
      store := s₁ } d' (e.log.length + 1) (e.log.length + 1) e.log.length t
    (OpLog.doCommit desc d t top st (e.log.length + 1) e.log.length)
    (OpLog.doCommit desc d t top st (e.log.length + 1) e.log.length)
    (OpLog.doPrepare desc d t top st c) top c s₂
    h3 rfl (by omega) h4 rfl h5 rfl rfl h6 happ₂
  have hred : OpLog.newRedos top (e.log.length + 1) (e.log.length + 1) =
      top.redos ++ [(e.log.length + 1, e.log.length + 1)] := by
    unfold OpLog.newRedos
    congr 1
    rw [List.filter_eq_self]
    intro pr hpr
    have := hredos pr hpr
    simp only [decide_eq_true_eq]
    omega
  exact ⟨_, _, hdo, rfl, hundo, rfl, ⟨_, _, listTop_concat _ _, rfl, rfl, rfl, hred⟩, hrest⟩

/-- Witness for C3: `do A {foo: A}` then undo on the freshly initialised
engine with an empty store. -/
theorem C3_do_undo_witness :
    (ckeys [("foo", ((none : Option String), some "A"))]).Nodup ∧
    (∃ r₁ r₂, OpLog.doAct { log := [rInit], store := [] } "A"
        [("foo", (none, some "A"))] [("s", some "A")] 1 = some r₁ ∧ r₁.error = none ∧
      OpLog.undo r₁.engine 9 = some r₂ ∧ r₂.error = none ∧
      (∃ i tip₂, listTop r₂.engine.log = some (i, tip₂) ∧
        tip₂.n = rInit.n ∧ tip₂.linear_idx = rInit.linear_idx ∧ tip₂.state = rInit.state ∧
        tip₂.redos = rInit.redos ++ [(2, 2)]) ∧
      (∀ k, dget r₂.engine.store k = dget ([] : StoreD) k)) :=
  ⟨by decide,
   C3_do_undo { log := [rInit], store := [] } "A" [("foo", (none, some "A"))]
     [("s", some "A")] 1 9 0 rInit [("foo", some "A")] rfl (by decide) (by decide)
     (by decide) (by intro pr hpr; simp [rInit, OpLog.initRec] at hpr)⟩

/-! ### Claim C4: undo then redo() -/

/-- C4: for every engine state on which undo succeeds, a following `redo()`
with the default `n = -1` succeeds, redoes the action just undone (the new
tip is a `commit-redo` for the same action), and restores the store contents
(observably, key by key) and the tip's `(n, linear_idx, state, redos)` to
exactly those of the tip immediately before the undo. -/
theorem C4_undo_redo (e : Engine) (d d' t li pidx opi : Nat)
    (top to_undo prepRec old_prev : Operation) (c : Changes) (s₁ : StoreD)
    (htop : listTop e.log = some (t, top))
    (hli : top.linear_idx = some li) (hli0 : li ≠ 0)
    (hget : e.log.get? li = some to_undo)
    (hpi : to_undo.prepare_idx = some pidx)
    (hgetp : e.log.get? pidx = some prepRec)
    (hch : prepRec.changes = some c)
    (hprev : top.prev_idx = some opi)
    (hgetprev : e.log.get? opi = some old_prev)
    (hnd : (ckeys c).Nodup)
    (hn : old_prev.n + 1 = top.n)
    (happ : applyChanges e.store (cswap c) = (s₁, true)) :
    ∃ r₁ r₂, OpLog.undo e d = some r₁ ∧ r₁.error = none ∧
      OpLog.redo r₁.engine (-1) d' = some r₂ ∧ r₂.error = none ∧
      (∃ i tip₂, listTop r₂.engine.log = some (i, tip₂) ∧
        tip₂.kind = .commitRedo ∧ tip₂.description = to_undo.description ∧
        tip₂.n = top.n ∧ tip₂.linear_idx = top.linear_idx ∧ tip₂.state = top.state ∧
        tip₂.redos = top.redos) ∧
      (∀ k, dget r₂.engine.store k = dget e.store k) := by
  have hundo := OpLog.undo_ok e d t li pidx opi top to_undo prepRec old_prev c s₁
    htop hli hli0 hget hpi hgetp hch hprev hgetprev happ
  have hnd' : (ckeys (cswap c)).Nodup := by rwa [ckeys_cswap]
  obtain ⟨s₂, happ₂, hrest⟩ := apply_cswap_restore (cswap c) e.store s₁ hnd' happ
  rw [cswap_cswap] at happ₂
  have htp := listTop_get? _ _ _ htop
  have hlilt : li < e.log.length := lt_of_get?_some _ _ _ hget
  have hpilt : pidx < e.log.length := lt_of_get?_some _ _ _ hgetp
  have htlt : t < e.log.length := by omega
  have h2 : (e.log ++ [OpLog.undoPrepare to_undo.description d old_prev (cswap c)]).length =
      e.log.length + 1 := by simp
  have h3 : listTop ((e.log ++ [OpLog.undoPrepare to_undo.description d old_prev (cswap c)]) ++
      [OpLog.undoCommit to_undo.description d old_prev (OpLog.newRedos old_prev li t)
        e.log.length]) =
      some (e.log.length + 1,
            OpLog.undoCommit to_undo.description d old_prev (OpLog.newRedos old_prev li t)
              e.log.length) := by
    rw [listTop_concat, h2]
  have hne : ¬ (OpLog.undoCommit to_undo.description d old_prev
      (OpLog.newRedos old_prev li t) e.log.length).redos.length = 0 := by
    simp [OpLog.undoCommit, OpLog.newRedos]
  have hL1 : 1 ≤ (OpLog.undoCommit to_undo.description d old_prev
      (OpLog.newRedos old_prev li t) e.log.length).redos.length := by
    simp [OpLog.undoCommit, OpLog.newRedos]
  have hrange : ¬ ((-1 : Int) < -((OpLog.undoCommit to_undo.description d old_prev
        (OpLog.newRedos old_prev li t) e.log.length).redos.length : Int) ∨
      (-1 : Int) ≥ ((OpLog.undoCommit to_undo.description d old_prev
        (OpLog.newRedos old_prev li t) e.log.length).redos.length : Int)) := by
    push_neg
    constructor <;> omega
  have hsel : pyIdx (OpLog.undoCommit to_undo.description d old_prev
      (OpLog.newRedos old_prev li t) e.log.length).redos (-1) = some (li, t) := by
    show pyIdx (OpLog.newRedos old_prev li t) (-1) = some (li, t)
    unfold pyIdx
    rw [if_pos (by decide)]
    show (OpLog.newRedos old_prev li t).get?
      ((OpLog.newRedos old_prev li t).length - Int.toNat 1) = some (li, t)
    unfold OpLog.newRedos
    have hlen : ((old_prev.redos.filter (fun r => r.1 ≠ li)) ++ [(li, t)]).length -
        Int.toNat 1 = (old_prev.redos.filter (fun r => r.1 ≠ li)).length := by
      simp
    rw [hlen]
    exact get?_concat_len _ _
  have hlift : ∀ (i : Nat) (a : Operation), i < e.log.length → e.log.get? i = some a →
      ((e.log ++ [OpLog.undoPrepare to_undo.description d old_prev (cswap c)]) ++
        [OpLog.undoCommit to_undo.description d old_prev (OpLog.newRedos old_prev li t)
          e.log.length]).get? i = some a := by
    intro i a hi ha
    rw [get?_append_sub _ _ _ (by simp; omega), get?_append_sub _ _ _ hi]
    exact ha
  have hredo := OpLog.redo_ok
    { log := (e.log ++ [OpLog.undoPrepare to_undo.description d old_prev (cswap c)]) ++
        [OpLog.undoCommit to_undo.description d old_prev (OpLog.newRedos old_prev li t)
          e.log.length],
      store := s₁ } (-1) d' (e.log.length + 1) li t pidx
    (OpLog.undoCommit to_undo.description d old_prev (OpLog.newRedos old_prev li t)
      e.log.length)
    to_undo prepRec top c s₂
    h3 hne hrange hsel (hlift li to_undo hlilt hget) hpi (hlift pidx prepRec hpilt hgetp)
    hch (hlift t top htlt htp.1) happ₂
  exact ⟨_, _, hundo, rfl, hredo, rfl,
    ⟨_, _, listTop_concat _ _, rfl, rfl, hn, hli.symm, rfl, rfl⟩, hrest⟩

/-- Witness for C4 on the engine after `init; do A; do B`: undo B then
`redo()` restores the `do B` tip. -/
theorem C4_undo_redo_witness :
    listTop eB.log = some (4, cB) ∧
    (∃ r₁ r₂, OpLog.undo eB 3 = some r₁ ∧ r₁.error = none ∧
      OpLog.redo r₁.engine (-1) 7 = some r₂ ∧ r₂.error = none ∧
      (∃ i tip₂, listTop r₂.engine.log = some (i, tip₂) ∧
        tip₂.kind = .commitRedo ∧ tip₂.description = cB.description ∧
        tip₂.n = cB.n ∧ tip₂.linear_idx = cB.linear_idx ∧ tip₂.state = cB.state ∧
        tip₂.redos = cB.redos) ∧
      (∀ k, dget r₂.engine.store k = dget eB.store k)) :=
  ⟨rfl,
   C4_undo_redo eB 3 7 4 4 3 2 cB cB pB cA [("foo", (some "A", some "B"))]
     [("foo", some "A")] rfl rfl (by decide) rfl rfl rfl rfl rfl rfl (by decide)
     (by decide) (by decide)⟩

/-! ### Claim C7: failure handling when store.apply fails -/

/-- C7 counterexample: store `{k: C}`, `do X` with change `k: (A, B)`.
`store.apply` fails (`C ≠ A`) and the best-effort `store.rollback` also fails
(`C` is neither `B` nor `A`), so no `rollback-do` record is appended: the log
gains only the `prepare-do` and the tip is a prepare record, refuting the
claim that every apply failure appends a rollback record. -/
theorem C7_rollback_counterexample :
    ((OpLog.doAct { log := [rInit], store := [("k", some "C")] } "X"
        [("k", (some "A", some "B"))] [] 1).map fun r =>
      (r.error, r.engine.log.length, (listTop r.engine.log).map fun p => p.2.kind)) =
      some (some .storeError, 2, some .prepareDo) ∧
    Kind.prepareDo ≠ Kind.rollbackDo := by
  exact ⟨by decide, by decide⟩

/-- C7 (amended): whenever `store.apply` fails during do, undo or redo *and
the best-effort `store.rollback` succeeds*, the engine appends a `rollback-*`
record whose `(n, prev_idx, linear_idx, redos, state)` equal those of the tip
current before the operation began and re-raises the failure, so the tip
observed afterwards has the pre-operation tip's `(n, linear_idx, state,
redos)`.  (When the rollback itself also fails, only the `prepare-*` record
is in the log — the counterexample above.) -/
theorem C7_rollback_amended :
    (∀ (e : Engine) (desc : String) (c : Changes) (st : StateMap) (d t : Nat)
        (top : Operation) (s₁ s₂ : StoreD),
      listTop e.log = some (t, top) →
      applyChanges e.store c = (s₁, false) →
      rollbackChanges s₁ c = (s₂, true) →
      ∃ r, OpLog.doAct e desc c st d = some r ∧ r.error = some .storeError ∧
        ∃ i rb, listTop r.engine.log = some (i, rb) ∧ rb.kind = .rollbackDo ∧
          rb.n = top.n ∧ rb.prev_idx = top.prev_idx ∧ rb.linear_idx = top.linear_idx ∧
          rb.redos = top.redos ∧ rb.state = top.state) ∧
    (∀ (e : Engine) (d t li pidx opi : Nat) (top to_undo prepRec old_prev : Operation)
        (c : Changes) (s₁ s₂ : StoreD),
      listTop e.log = some (t, top) → top.linear_idx = some li → li ≠ 0 →
      e.log.get? li = some to_undo → to_undo.prepare_idx = some pidx →
      e.log.get? pidx = some prepRec → prepRec.changes = some c →
      top.prev_idx = some opi → e.log.get? opi = some old_prev →
      applyChanges e.store (cswap c) = (s₁, false) →
      rollbackChanges s₁ (cswap c) = (s₂, true) →
      ∃ r, OpLog.undo e d = some r ∧ r.error = some .storeError ∧
        ∃ i rb, listTop r.engine.log = some (i, rb) ∧ rb.kind = .rollbackUndo ∧
          rb.n = top.n ∧ rb.prev_idx = top.prev_idx ∧ rb.linear_idx = top.linear_idx ∧
          rb.redos = top.redos ∧ rb.state = top.state) ∧
    (∀ (e : Engine) (nn : Int) (d t rli ridx pidx : Nat)
        (top redo_of prepRec redo_entry : Operation) (c : Changes) (s₁ s₂ : StoreD),
      listTop e.log = some (t, top) → ¬ top.redos.length = 0 →
      ¬ (nn < -(top.redos.length : Int) ∨ nn ≥ (top.redos.length : Int)) →
      pyIdx top.redos nn = some (rli, ridx) →
      e.log.get? rli = some redo_of → redo_of.prepare_idx = some pidx →
      e.log.get? pidx = some prepRec → prepRec.changes = some c →
      e.log.get? ridx = some redo_entry →
      applyChanges e.store c = (s₁, false) →
      rollbackChanges s₁ c = (s₂, true) →
      ∃ r, OpLog.redo e nn d = some r ∧ r.error = some .storeError ∧
        ∃ i rb, listTop r.engine.log = some (i, rb) ∧ rb.kind = .rollbackRedo ∧
          rb.n = top.n ∧ rb.prev_idx = top.prev_idx ∧ rb.linear_idx = top.linear_idx ∧
          rb.redos = top.redos ∧ rb.state = top.state) := by
  refine ⟨?_, ?_, ?_⟩
  · intro e desc c st d t top s₁ s₂ htop happ hrb
    exact ⟨_, OpLog.doAct_fail e desc c st d t top s₁ s₂ htop happ hrb, rfl,
      ⟨_, _, listTop_concat _ _, rfl, rfl, rfl, rfl, rfl, rfl⟩⟩
  · intro e d t li pidx opi top to_undo prepRec old_prev c s₁ s₂
      htop hli hli0 hget hpi hgetp hch hprev hgetprev happ hrb
    exact ⟨_, OpLog.undo_fail e d t li pidx opi top to_undo prepRec old_prev c s₁ s₂
      htop hli hli0 hget hpi hgetp hch hprev hgetprev happ hrb, rfl,
      ⟨_, _, listTop_concat _ _, rfl, rfl, rfl, rfl, rfl, rfl⟩⟩
  · intro e nn d t rli ridx pidx top redo_of prepRec redo_entry c s₁ s₂
      htop hne hrange hsel hget hpi hgetp hch hentry happ hrb
    exact ⟨_, OpLog.redo_fail e nn d t rli ridx pidx top redo_of prepRec redo_entry c s₁ s₂
      htop hne hrange hsel hget hpi hgetp hch hentry happ hrb, rfl,
      ⟨_, _, listTop_concat _ _, rfl, rfl, rfl, rfl, rfl, rfl⟩⟩

/-- Witness for C7 (amended): one concrete apply-fails/rollback-succeeds run
through each of do, undo and redo. -/
theorem C7_rollback_amended_witness :
    (∃ r, OpLog.doAct { log := [rInit], store := [("k", some "B")] } "X"
        [("k", (some "A", some "B"))] [] 1 = some r ∧ r.error = some .storeError ∧
      ∃ i rb, listTop r.engine.log = some (i, rb) ∧ rb.kind = .rollbackDo ∧
        rb.n = rInit.n ∧ rb.prev_idx = rInit.prev_idx ∧ rb.linear_idx = rInit.linear_idx ∧
        rb.redos = rInit.redos ∧ rb.state = rInit.state) ∧
    (∃ r, OpLog.undo { log := eB.log, store := [("foo", some "A")] } 3 = some r ∧
      r.error = some .storeError ∧
      ∃ i rb, listTop r.engine.log = some (i, rb) ∧ rb.kind = .rollbackUndo ∧
        rb.n = cB.n ∧ rb.prev_idx = cB.prev_idx ∧ rb.linear_idx = cB.linear_idx ∧
        rb.redos = cB.redos ∧ rb.state = cB.state) ∧
    (∃ r, OpLog.redo { log := eU.log, store := [("foo", some "B")] } (-1) 7 = some r ∧
      r.error = some .storeError ∧
      ∃ i rb, listTop r.engine.log = some (i, rb) ∧ rb.kind = .rollbackRedo ∧
        rb.n = cU.n ∧ rb.prev_idx = cU.prev_idx ∧ rb.linear_idx = cU.linear_idx ∧
        rb.redos = cU.redos ∧ rb.state = cU.state) :=
  ⟨C7_rollback_amended.1 { log := [rInit], store := [("k", some "B")] } "X"
     [("k", (some "A", some "B"))] [] 1 0 rInit [("k", some "B")] [("k", some "A")]
     rfl (by decide) (by decide),
   C7_rollback_amended.2.1 { log := eB.log, store := [("foo", some "A")] } 3 4 4 3 2
     cB cB pB cA [("foo", (some "A", some "B"))] [("foo", some "A")] [("foo", some "B")]
     rfl rfl (by decide) rfl rfl rfl rfl rfl rfl (by decide) (by decide),
   C7_rollback_amended.2.2 { log := eU.log, store := [("foo", some "B")] } (-1) 7 6 4 4 3
     cU cB pB cB [("foo", (some "A", some "B"))] [("foo", some "B")] [("foo", some "A")]
     rfl (by decide) (by decide) (by decide) rfl rfl rfl rfl rfl (by decide) (by decide)⟩

/-! ### Claim C1: recovery from a prepare-* tip -/

/-- The crashed log: `init; do A; do B` with the `prepare-undo` that `undo`
writes appended, the crash falling between the prepare and the commit. -/
def eCrash : Engine := { log := [rInit, pA, cA, pB, cB, pU], store := [("foo", some "B")] }

/-- C1 at the failing input.  The record that was the tip when the
interrupted undo began is `commit-do B` (log index 4, `n = 2`, state
`{s: B}`), but `recover` clones `log.get(top.prev_idx)` and the
prepare-undo's `prev_idx` — copied from `old_prev` (commit-do A) when the
prepare was built — is 0, the `commit-init`: the appended `rollback-undo`
carries `n = 0` and the initial state, so recovery does not restore the
pre-prepare predecessor for `prepare-undo` tips. -/
theorem C1_recover_eval :
    pU.kind = Kind.prepareUndo ∧
    eCrash.log.get? 4 = some cB ∧ cB.kind = Kind.commitDo ∧
    cB.n = 2 ∧ cB.state = [("s", some "B")] ∧
    pU.prev_idx = some 0 ∧
    ((OpLog.recover eCrash 9).map fun r =>
        (r.error, (listTop r.engine.log).map fun p => (p.2.kind, p.2.n, p.2.state))) =
      some (none, some (Kind.rollbackUndo, 0, [("s", some "0")])) ∧
    (0 : Nat) ≠ cB.n ∧ ([("s", some "0")] : StateMap) ≠ cB.state := by
  exact ⟨rfl, rfl, rfl, rfl, rfl, rfl, by rfl, by decide, by decide⟩

/-! ### Claim C9: no two redo entries for the same action -/

/-- Where the redo set of any record in the post-operation log can come from:
the record was already in the log, or its redos are empty, or they copy an
in-log record's redos, or they are the undo update of an in-log record's
redos. -/
def RedosFrom (log : List Operation) (op : Operation) : Prop :=
  op ∈ log ∨ op.redos = [] ∨ (∃ src, src ∈ log ∧ op.redos = src.redos) ∨
    (∃ src li ti, src ∈ log ∧ op.redos = OpLog.newRedos src li ti)

theorem doAct_mem (e : Engine) (desc : String) (c : Changes) (stt : StateMap)
    (d : Nat) (r : Res) (h : OpLog.doAct e desc c stt d = some r) :
    ∀ op ∈ r.engine.log, RedosFrom e.log op := by
  unfold OpLog.doAct at h
  split at h
  · exact absurd h (by simp)
  · rename_i t top htop
    split at h
    · rename_i s₁ happ
      injection h with h'
      subst h'
      intro op hop
      simp only [List.mem_append, List.mem_singleton] at hop
      rcases hop with (hop | hop) | hop
      · exact Or.inl hop
      · subst hop; exact Or.inr (Or.inl rfl)
      · subst hop; exact Or.inr (Or.inl rfl)
    · rename_i s₁ happ
      split at h
      · rename_i s₂ hrb
        injection h with h'
        subst h'
        intro op hop
        simp only [List.mem_append, List.mem_singleton] at hop
        rcases hop with (hop | hop) | hop
        · exact Or.inl hop
        · subst hop; exact Or.inr (Or.inl rfl)
        · subst hop
          exact Or.inr (Or.inr (Or.inl ⟨top, listTop_mem _ _ _ htop, rfl⟩))
      · rename_i s₂ hrb
        injection h with h'
        subst h'
        intro op hop
        simp only [List.mem_append, List.mem_singleton] at hop
        rcases hop with hop | hop
        · exact Or.inl hop
        · subst hop; exact Or.inr (Or.inl rfl)

theorem undo_mem (e : Engine) (d : Nat) (r : Res) (h : OpLog.undo e d = some r) :
    ∀ op ∈ r.engine.log, RedosFrom e.log op := by
  unfold OpLog.undo at h
  split at h
  · exact absurd h (by simp)
  · rename_i t top htop
    split at h
    · injection h with h'
      subst h'
      intro op hop
      exact Or.inl hop
    · split at h
      · exact absurd h (by simp)
      · rename_i li hli
        split at h
        · exact absurd h (by simp)
        · rename_i to_undo hget
          split at h
          · exact absurd h (by simp)
          · rename_i pidx hpi
            split at h
            · exact absurd h (by simp)
            · rename_i prepRec hgetp
              split at h
              · exact absurd h (by simp)
              · rename_i c hch
                split at h
                · exact absurd h (by simp)
                · rename_i opi hprev
                  split at h
                  · exact absurd h (by simp)
                  · rename_i old_prev hgetprev
                    dsimp only [] at h
                    split at h
                    · rename_i s₁ happ
                      injection h with h'
                      subst h'
                      intro op hop
                      simp only [List.mem_append, List.mem_singleton] at hop
                      rcases hop with (hop | hop) | hop
                      · exact Or.inl hop
                      · subst hop; exact Or.inr (Or.inl rfl)
                      · subst hop
                        exact Or.inr (Or.inr (Or.inr
                          ⟨old_prev, li, t, List.get?_mem hgetprev, rfl⟩))
                    · rename_i s₁ happ
                      split at h
                      · rename_i s₂ hrb
                        injection h with h'
                        subst h'
                        intro op hop
                        simp only [List.mem_append, List.mem_singleton] at hop
                        rcases hop with (hop | hop) | hop
                        · exact Or.inl hop
                        · subst hop; exact Or.inr (Or.inl rfl)
                        · subst hop
                          exact Or.inr (Or.inr (Or.inl ⟨top, listTop_mem _ _ _ htop, rfl⟩))
                      · rename_i s₂ hrb
                        injection h with h'
                        subst h'
                        intro op hop
                        simp only [List.mem_append, List.mem_singleton] at hop
                        rcases hop with hop | hop
                        · exact Or.inl hop
                        · subst hop; exact Or.inr (Or.inl rfl)

theorem redo_mem (e : Engine) (nn : Int) (d : Nat) (r : Res)
    (h : OpLog.redo e nn d = some r) :
    ∀ op ∈ r.engine.log, RedosFrom e.log op := by
  unfold OpLog.redo at h
  split at h
  · exact absurd h (by simp)
  · rename_i t top htop
    dsimp only [] at h
    split at h
    · injection h with h'
      subst h'
      intro op hop
      exact Or.inl hop
    · split at h
      · injection h with h'
        subst h'
        intro op hop
        exact Or.inl hop
      · split at h
        · exact absurd h (by simp)
        · rename_i rli ridx hsel
          split at h
          · exact absurd h (by simp)
          · rename_i redo_of hget
            split at h
            · exact absurd h (by simp)
            · rename_i pidx hpi
              split at h
              · exact absurd h (by simp)
              · rename_i prepRec hgetp
                split at h
                · exact absurd h (by simp)
                · rename_i c hch
                  split at h
                  · exact absurd h (by simp)
                  · rename_i redo_entry hentry
                    split at h
                    · rename_i s₁ happ
                      injection h with h'
                      subst h'
                      intro op hop
                      simp only [List.mem_append, List.mem_singleton] at hop
                      rcases hop with (hop | hop) | hop
                      · exact Or.inl hop
                      · subst hop; exact Or.inr (Or.inl rfl)
                      · subst hop
                        exact Or.inr (Or.inr (Or.inl
                          ⟨redo_entry, List.get?_mem hentry, rfl⟩))
                    · rename_i s₁ happ
                      split at h
                      · rename_i s₂ hrb
                        injection h with h'
                        subst h'
                        intro op hop
                        simp only [List.mem_append, List.mem_singleton] at hop
                        rcases hop with (hop | hop) | hop
                        · exact Or.inl hop
                        · subst hop; exact Or.inr (Or.inl rfl)
                        · subst hop
                          exact Or.inr (Or.inr (Or.inl ⟨top, listTop_mem _ _ _ htop, rfl⟩))
                      · rename_i s₂ hrb
                        injection h with h'
                        subst h'
                        intro op hop
                        simp only [List.mem_append, List.mem_singleton] at hop
                        rcases hop with hop | hop
                        · exact Or.inl hop
                        · subst hop; exact Or.inr (Or.inl rfl)

theorem newRedos_nodup (src : Operation) (li ti : Nat)
    (h : (src.redos.map Prod.fst).Nodup) :
    (((OpLog.newRedos src li ti).map Prod.fst)).Nodup := by
  unfold OpLog.newRedos
  rw [List.map_append, List.nodup_append]
  refine ⟨?_, by simp, ?_⟩
  · exact List.Nodup.sublist ((List.filter_sublist _).map Prod.fst) h
  · intro a ha hb
    simp only [List.map_cons, List.map_nil, List.mem_singleton] at hb
    subst hb
    simp only [List.mem_map] at ha
    obtain ⟨pr, hpr, hfst⟩ := ha
    have := List.of_mem_filter hpr
    simp only [decide_eq_true_eq] at this
    exact this hfst

/-- Engine states reachable from a freshly initialised log by any sequence of
do / undo / redo calls, counting both normal returns and raised errors (the
post-state of a raise persists, per the embedding of exceptions). -/
inductive Reach : Engine → Prop where
  | base (s : StateMap) (d : Nat) (st : StoreD) :
      Reach { log := [OpLog.initRec s d], store := st }
  | stepDo (e : Engine) (desc : String) (c : Changes) (stt : StateMap) (d : Nat)
      (r : Res) : Reach e → OpLog.doAct e desc c stt d = some r → Reach r.engine
  | stepUndo (e : Engine) (d : Nat) (r : Res) :
      Reach e → OpLog.undo e d = some r → Reach r.engine
  | stepRedo (e : Engine) (nn : Int) (d : Nat) (r : Res) :
      Reach e → OpLog.redo e nn d = some r → Reach r.engine

theorem redosFrom_nodup (e : Engine) (ih : ∀ op ∈ e.log, (op.redos.map Prod.fst).Nodup)
    (op : Operation) (h : RedosFrom e.log op) : (op.redos.map Prod.fst).Nodup := by
  rcases h with hmem | h0 | ⟨src, hsrc, hc⟩ | ⟨src, li, ti, hsrc, hn⟩
  · exact ih op hmem
  · rw [h0]; simp
  · rw [hc]; exact ih src hsrc
  · rw [hn]; exact newRedos_nodup src li ti (ih src hsrc)

/-- C9: in every engine state reachable by any sequence of successful or
failed do / undo / redo operations from an initialised log, every record's
redo set — in particular the tip's — contains at most one entry per original
action: the first components are pairwise distinct. -/
theorem C9_redos_nodup (e : Engine) (hr : Reach e) :
    ∀ op ∈ e.log, (op.redos.map Prod.fst).Nodup := by
  induction hr with
  | base s d st =>
    intro op hop
    simp only [List.mem_singleton] at hop
    subst hop
    simp [OpLog.initRec]
  | stepDo e desc c stt d r hre h ih =>
    exact fun op hop => redosFrom_nodup e ih op (doAct_mem e desc c stt d r h op hop)
  | stepUndo e d r hre h ih =>
    exact fun op hop => redosFrom_nodup e ih op (undo_mem e d r h op hop)
  | stepRedo e nn d r hre h ih =>
    exact fun op hop => redosFrom_nodup e ih op (redo_mem e nn d r h op hop)

/-- The engine state after `init; do A` (log indices 0–2). -/
def eA : Engine := { log := [rInit, pA, cA], store := [("foo", some "A")] }

/-- Witness for C9: the tip after `init; do A; do B; undo` is reachable and
its redo set `[(4, 4)]` has pairwise-distinct first components. -/
theorem C9_redos_nodup_witness : ((cU.redos).map Prod.fst).Nodup :=
  C9_redos_nodup eU
    (Reach.stepUndo eB 3 { engine := eU, error := none }
      (Reach.stepDo eA "B" [("foo", (some "A", some "B"))] [("s", some "B")] 2
        { engine := eB, error := none }
        (Reach.stepDo { log := [rInit], store := [] } "A" [("foo", (none, some "A"))]
          [("s", some "A")] 1 { engine := eA, error := none }
          (Reach.base [("s", some "0")] 0 []) (by decide))
        (by decide))
      (by decide))
    cU (by decide)

/-! ### Claims C5 and C6: compaction

`Chain log top ch` captures the spec's log invariants (I3–I5, I9) along the
prev-chain of a quiescent tip, exactly as far as `compact` and
`linear_history` rely on them: every walk record names a linear record whose
prepare exists, the predecessor exists and sits one linear position lower,
and the walk ends at a record with `linear_idx = 0` and `n = 0`. -/
inductive Chain (log : List Operation) : Operation → List Operation → Prop where
  | nil (top : Operation) (h0 : top.linear_idx = some 0) (hn : top.n = 0) :
      Chain log top []
  | cons (top : Operation) (l : Nat) (lin : Operation) (pi : Nat) (prep : Operation)
      (p : Nat) (prev : Operation) (ch : List Operation)
      (hli : top.linear_idx = some l) (hl : 0 < l)
      (hlin : log.get? l = some lin)
      (hpi : lin.prepare_idx = some pi)
      (hprep : log.get? pi = some prep)
      (hprev : top.prev_idx = some p)
      (hgetp : log.get? p = some prev)
      (hn : prev.n + 1 = top.n)
      (hch : Chain log prev ch) :
      Chain log top (top :: ch)

theorem chain_n (log : List Operation) (top : Operation) (ch : List Operation)
    (h : Chain log top ch) : top.n = ch.length := by
  induction h with
  | nil top h0 hn => simpa using hn
  | cons top l lin pi prep p prev ch hli hl hlin hpi hprep hprev hgetp hn hch ih =>
    simp only [List.length_cons]
    omega

/-- The description `linear_history` reads for a walk record: that of the
record at its `linear_idx`. -/
def linDesc (log : List Operation) (op : Operation) : String :=
  match op.linear_idx with
  | none => ""
  | some l =>
    match log.get? l with
    | none => ""
    | some lin => lin.description

/-- The data `emitLoop` reads for each collected entry, supplied by `Chain`. -/
def ElemOk (log : List Operation) (op : Operation) : Prop :=
  ∃ l lin pi prep, op.linear_idx = some l ∧ log.get? l = some lin ∧
    lin.prepare_idx = some pi ∧ log.get? pi = some prep

theorem chain_elem (log : List Operation) (top : Operation) (ch : List Operation)
    (h : Chain log top ch) : ∀ op ∈ ch, ElemOk log op := by
  induction h with
  | nil top h0 hn => intro op hop; simp at hop
  | cons top l lin pi prep p prev ch hli hl hlin hpi hprep hprev hgetp hn hch ih =>
    intro op hop
    rcases List.mem_cons.mp hop with hop | hop
    · subst hop
      exact ⟨l, lin, pi, prep, hli, hlin, hpi, hprep⟩
    · exact ih op hop

theorem linHistAux_mono_fuel (log : List Operation) :
    ∀ (fuel fuel' : Nat) (top : Operation) (out : List (Nat × String)),
    OpLog.linHistAux log fuel top = some out → fuel ≤ fuel' →
    OpLog.linHistAux log fuel' top = some out := by
  intro fuel
  induction fuel with
  | zero =>
    intro fuel' top out h _
    simp [OpLog.linHistAux] at h
  | succ n ih =>
    intro fuel' top out h hle
    obtain ⟨m, rfl⟩ : ∃ m, fuel' = m + 1 := ⟨fuel' - 1, by omega⟩
    unfold OpLog.linHistAux at h ⊢
    cases hli : top.linear_idx with
    | none => simp only [hli] at h; exact Option.noConfusion h
    | some l =>
      simp only [hli] at h ⊢
      by_cases hl : 0 < l
      · rw [if_pos hl] at h ⊢
        cases hlin : log.get? l with
        | none => simp only [hlin] at h; exact Option.noConfusion h
        | some lin =>
          simp only [hlin] at h ⊢
          cases hp : top.prev_idx with
          | none => simp only [hp] at h; exact Option.noConfusion h
          | some p =>
            simp only [hp] at h ⊢
            cases hgp : log.get? p with
            | none => simp only [hgp] at h; exact Option.noConfusion h
            | some prev =>
              simp only [hgp] at h ⊢
              cases hrec : OpLog.linHistAux log n prev with
              | none => simp only [hrec, Option.map_none'] at h; exact Option.noConfusion h
              | some out' =>
                rw [ih m prev out' hrec (by omega)]
                simp only [hrec, Option.map_some'] at h
                simp only [Option.map_some']
                exact h
      · rw [if_neg hl] at h ⊢
        exact h

theorem linHistAux_mono_log (log ext : List Operation) :
    ∀ (fuel : Nat) (top : Operation) (out : List (Nat × String)),
    OpLog.linHistAux log fuel top = some out →
    OpLog.linHistAux (log ++ ext) fuel top = some out := by
  intro fuel
  induction fuel with
  | zero =>
    intro top out h
    simp [OpLog.linHistAux] at h
  | succ n ih =>
    intro top out h
    unfold OpLog.linHistAux at h ⊢
    cases hli : top.linear_idx with
    | none => simp only [hli] at h; exact Option.noConfusion h
    | some l =>
      simp only [hli] at h ⊢
      by_cases hl : 0 < l
      · rw [if_pos hl] at h ⊢
        cases hlin : log.get? l with
        | none => simp only [hlin] at h; exact Option.noConfusion h
        | some lin =>
          simp only [hlin] at h
          have hlin' : (log ++ ext).get? l = some lin := by
            rw [get?_append_sub _ _ _ (lt_of_get?_some _ _ _ hlin)]
            exact hlin
          simp only [hlin']
          cases hp : top.prev_idx with
          | none => simp only [hp] at h; exact Option.noConfusion h
          | some p =>
            simp only [hp] at h ⊢
            cases hgp : log.get? p with
            | none => simp only [hgp] at h; exact Option.noConfusion h
            | some prev =>
              simp only [hgp] at h
              have hgp' : (log ++ ext).get? p = some prev := by
                rw [get?_append_sub _ _ _ (lt_of_get?_some _ _ _ hgp)]
                exact hgp
              simp only [hgp']
              cases hrec : OpLog.linHistAux log n prev with
              | none => simp only [hrec, Option.map_none'] at h; exact Option.noConfusion h
              | some out' =>
                rw [ih prev out' hrec]
                simp only [hrec, Option.map_some'] at h
                simp only [Option.map_some']
                exact h
      · rw [if_neg hl] at h ⊢
        exact h

theorem linHistAux_of_chain (log : List Operation) (top : Operation) (ch : List Operation)
    (hch : Chain log top ch) :
    ∀ fuel, ch.length < fuel →
    OpLog.linHistAux log fuel top =
      some (ch.map (fun op => (op.date, linDesc log op))) := by
  induction hch with
  | nil top h0 hn =>
    intro fuel hfuel
    obtain ⟨m, rfl⟩ : ∃ m, fuel = m + 1 := ⟨fuel - 1, by omega⟩
    unfold OpLog.linHistAux
    simp only [h0]
    rw [if_neg (by omega)]
    rfl
  | cons top l lin pi prep p prev ch hli hl hlin hpi hprep hprev hgetp hn hch ih =>
    intro fuel hfuel
    obtain ⟨m, rfl⟩ : ∃ m, fuel = m + 1 := ⟨fuel - 1, by omega⟩
    unfold OpLog.linHistAux
    simp only [hli]
    rw [if_pos hl]
    simp only [hlin, hprev, hgetp]
    rw [ih m (by simp at hfuel; omega)]
    simp only [Option.map_some', List.map_cons, Option.some.injEq]
    have : linDesc log top = lin.description := by
      unfold linDesc
      simp only [hli, hlin]
    rw [this]

/-- The functional effect of the backward walk on the entries list. -/
def chFill (ch : List Operation) (entries : List (Option Operation)) :
    List (Option Operation) :=
  ch.foldl (fun a op => a.set (op.n - 1) (some op)) entries

theorem walkEntries_of_chain (log : List Operation) (top : Operation)
    (ch : List Operation) (hch : Chain log top ch) :
    ∀ (fuel : Nat) (entries : List (Option Operation)), ch.length < fuel →
    ∃ term, OpLog.walkEntries log fuel top entries = some (chFill ch entries, term) := by
  induction hch with
  | nil top h0 hn =>
    intro fuel entries hfuel
    obtain ⟨m, rfl⟩ : ∃ m, fuel = m + 1 := ⟨fuel - 1, by omega⟩
    refine ⟨top, ?_⟩
    unfold OpLog.walkEntries
    simp only [h0]
    rw [if_neg (by omega)]
    rfl
  | cons top l lin pi prep p prev ch hli hl hlin hpi hprep hprev hgetp hn hch ih =>
    intro fuel entries hfuel
    obtain ⟨m, rfl⟩ : ∃ m, fuel = m + 1 := ⟨fuel - 1, by omega⟩
    obtain ⟨term, hterm⟩ :=
      ih m (entries.set (top.n - 1) (some top)) (by simp at hfuel; omega)
    refine ⟨term, ?_⟩
    unfold OpLog.walkEntries
    simp only [hli]
    rw [if_pos hl]
    simp only [hprev, hgetp]
    rw [hterm]
    rfl

theorem set_at_append (l₁ : List (Option Operation)) (x v : Option Operation)
    (l₂ : List (Option Operation)) :
    (l₁ ++ x :: l₂).set l₁.length v = l₁ ++ v :: l₂ := by
  induction l₁ with
  | nil => rfl
  | cons hd tl ih =>
    show hd :: ((tl ++ x :: l₂).set tl.length v) = hd :: (tl ++ v :: l₂)
    rw [ih]

/-- On a valid chain the dense walk fills the entries list with exactly the
chain in forward (oldest-first) order. -/
theorem chFill_dense (log : List Operation) (ch : List Operation) (top : Operation)
    (hch : Chain log top ch) :
    ∀ tail : List (Option Operation),
    chFill ch (List.replicate ch.length none ++ tail) = ch.reverse.map some ++ tail := by
  induction hch with
  | nil top h0 hn =>
    intro tail
    simp [chFill]
  | cons top l lin pi prep p prev ch hli hl hlin hpi hprep hprev hgetp hn hch ih =>
    intro tail
    have htopn : top.n = ch.length + 1 := by
      have := chain_n log prev ch hch
      omega
    have hstep : (List.replicate (ch.length + 1) (none : Option Operation) ++ tail).set
        (top.n - 1) (some top) =
        List.replicate ch.length none ++ (some top) :: tail := by
      rw [htopn]
      simp only [Nat.add_sub_cancel]
      rw [List.replicate_succ', List.append_assoc]
      have h := set_at_append (List.replicate ch.length none) none (some top) tail
      rw [List.length_replicate] at h
      exact h
    unfold chFill
    rw [List.foldl_cons]
    simp only [List.length_cons]
    rw [hstep]
    have hih := ih (some top :: tail)
    unfold chFill at hih
    rw [hih]
    simp [List.reverse_cons, List.map_append]

/-- Running the emit loop of `compact` over well-formed entries: the final
loop variable is the last entry, the new log grows by two records per entry,
and the linear-history walk of the new log from its last record yields the
entries' `(date, original description)` pairs, newest first, on top of the
walk of the log built so far. -/
theorem emitLoop_spec (log : List Operation) :
    ∀ (fwd : List Operation) (curTop : Operation) (nl : List Operation)
      (acc : List (Nat × String)) (lastRec : Operation) (f₀ : Nat),
    (∀ op ∈ fwd, ElemOk log op) →
    nl.getLast? = some lastRec →
    OpLog.linHistAux nl f₀ lastRec = some acc →
    ∃ (nl' : List Operation) (lastRec' : Operation),
      OpLog.emitLoop log (fwd.map some) curTop nl (nl.length - 1) =
        some (nl', fwd.getLastD curTop, nl'.length - 1) ∧
      nl'.getLast? = some lastRec' ∧
      nl'.length = nl.length + 2 * fwd.length ∧
      (fwd = [] → nl' = nl ∧ lastRec' = lastRec) ∧
      (fwd ≠ [] → lastRec'.linear_idx = some (nl'.length - 1)) ∧
      OpLog.linHistAux nl' (f₀ + fwd.length) lastRec' =
        some ((fwd.map (fun op => (op.date, linDesc log op))).reverse ++ acc) := by
  intro fwd
  induction fwd with
  | nil =>
    intro curTop nl acc lastRec f₀ helem hlast haux
    refine ⟨nl, lastRec, rfl, hlast, by simp, fun _ => ⟨rfl, rfl⟩,
      fun h => absurd rfl h, by simpa using haux⟩
  | cons op fwd' ih =>
    intro curTop nl acc lastRec f₀ helem hlast haux
    obtain ⟨l, lin, pi, prep, h1, h2, h3, h4⟩ := helem op (List.mem_cons_self _ _)
    have hnl_ne : nl ≠ [] := by
      intro he
      subst he
      simp at hlast
    have hnl_pos : 0 < nl.length := List.length_pos.mpr hnl_ne
    have hnl2len : ((nl ++ [OpLog.compactPrepare op lin prep (nl.length - 1)]) ++
        [OpLog.compactCommit op lin (nl.length + 1) (nl.length - 1) nl.length]).length =
        nl.length + 2 := by
      simp
    have hlast2 : ((nl ++ [OpLog.compactPrepare op lin prep (nl.length - 1)]) ++
        [OpLog.compactCommit op lin (nl.length + 1) (nl.length - 1) nl.length]).getLast? =
        some (OpLog.compactCommit op lin (nl.length + 1) (nl.length - 1) nl.length) := by
      simp [List.getLast?_concat]
    have hgetc : ((nl ++ [OpLog.compactPrepare op lin prep (nl.length - 1)]) ++
        [OpLog.compactCommit op lin (nl.length + 1) (nl.length - 1) nl.length]).get?
        (nl.length + 1) =
        some (OpLog.compactCommit op lin (nl.length + 1) (nl.length - 1) nl.length) := by
      have hl1 : (nl ++ [OpLog.compactPrepare op lin prep (nl.length - 1)]).length =
          nl.length + 1 := by simp
      rw [← hl1]
      exact get?_concat_len _ _
    have hgetl : ((nl ++ [OpLog.compactPrepare op lin prep (nl.length - 1)]) ++
        [OpLog.compactCommit op lin (nl.length + 1) (nl.length - 1) nl.length]).get?
        (nl.length - 1) = some lastRec := by
      rw [get?_append_sub _ _ _ (by simp; omega), get?_append_sub _ _ _ (by omega)]
      rw [List.get?_eq_getElem?, ← List.getLast?_eq_getElem?]
      exact hlast
    have haux2 : OpLog.linHistAux
        ((nl ++ [OpLog.compactPrepare op lin prep (nl.length - 1)]) ++
          [OpLog.compactCommit op lin (nl.length + 1) (nl.length - 1) nl.length]) (f₀ + 1)
        (OpLog.compactCommit op lin (nl.length + 1) (nl.length - 1) nl.length) =
        some ((op.date, linDesc log op) :: acc) := by
      have hlift : OpLog.linHistAux
          ((nl ++ [OpLog.compactPrepare op lin prep (nl.length - 1)]) ++
            [OpLog.compactCommit op lin (nl.length + 1) (nl.length - 1) nl.length]) f₀
          lastRec = some acc := by
        rw [List.append_assoc]
        exact linHistAux_mono_log nl _ f₀ lastRec acc haux
      unfold OpLog.linHistAux
      show (match (some (nl.length + 1) : Option Nat) with
            | none => none
            | some l => _) = _
      simp only
      rw [if_pos (by omega)]
      rw [hgetc]
      show (match (some (nl.length - 1) : Option Nat) with
            | none => none
            | some p => _) = _
      simp only
      rw [hgetl]
      show Option.map _ (OpLog.linHistAux _ f₀ lastRec) = _
      rw [hlift]
      simp only [Option.map_some', Option.some.injEq]
      have hdesc : linDesc log op = lin.description := by
        unfold linDesc
        simp only [h1]
        rw [h2]
      rw [hdesc]
      rfl
    obtain ⟨nl', lastRec', hrun, hlast', hlen', heq', hlin', haux'⟩ :=
      ih op ((nl ++ [OpLog.compactPrepare op lin prep (nl.length - 1)]) ++
          [OpLog.compactCommit op lin (nl.length + 1) (nl.length - 1) nl.length])
        ((op.date, linDesc log op) :: acc)
        (OpLog.compactCommit op lin (nl.length + 1) (nl.length - 1) nl.length)
        (f₀ + 1)
        (fun o ho => helem o (List.mem_cons_of_mem _ ho)) hlast2 haux2
    refine ⟨nl', lastRec', ?_, hlast', ?_, fun h => absurd h (by simp), ?_, ?_⟩
    · show OpLog.emitLoop log (some op :: fwd'.map some) curTop nl (nl.length - 1) = _
      unfold OpLog.emitLoop
      simp only [h1, h2, h3, h4]
      have harg : (nl ++ [OpLog.compactPrepare op lin prep (nl.length - 1)]).length =
          ((nl ++ [OpLog.compactPrepare op lin prep (nl.length - 1)]) ++
            [OpLog.compactCommit op lin (nl.length + 1) (nl.length - 1) nl.length]).length
          - 1 := by
        simp
      have harg2 : (nl ++ [OpLog.compactPrepare op lin prep (nl.length - 1)]).length =
          nl.length + 1 := by simp
      rw [List.getLastD_cons]
      calc OpLog.emitLoop log (fwd'.map some) op
            ((nl ++ [OpLog.compactPrepare op lin prep (nl.length - 1)]) ++
              [OpLog.compactCommit op lin
                (nl ++ [OpLog.compactPrepare op lin prep (nl.length - 1)]).length
                (nl.length - 1) nl.length])
            (nl ++ [OpLog.compactPrepare op lin prep (nl.length - 1)]).length
          = OpLog.emitLoop log (fwd'.map some) op
            ((nl ++ [OpLog.compactPrepare op lin prep (nl.length - 1)]) ++
              [OpLog.compactCommit op lin (nl.length + 1) (nl.length - 1) nl.length])
            (((nl ++ [OpLog.compactPrepare op lin prep (nl.length - 1)]) ++
              [OpLog.compactCommit op lin (nl.length + 1) (nl.length - 1) nl.length]).length
              - 1) := by rw [harg2, ← harg, harg2]
        _ = some (nl', fwd'.getLastD op, nl'.length - 1) := hrun
    · rw [hlen', hnl2len]
      simp only [List.length_cons]
      omega
    · intro _
      by_cases hf : fwd' = []
      · obtain ⟨hnl'eq, hlr'eq⟩ := heq' hf
        subst hnl'eq
        rw [hlr'eq, hnl2len]
        rfl
      · exact hlin' hf
    · have hflen : f₀ + (op :: fwd').length = f₀ + 1 + fwd'.length := by
        simp only [List.length_cons]
        omega
      rw [hflen, haux']
      simp only [List.map_cons, List.reverse_cons, List.append_assoc]
      rfl

theorem chain_head (log : List Operation) (top : Operation) (ch : List Operation)
    (h : Chain log top ch) (hne : ch ≠ []) : ∃ ch₀, ch = top :: ch₀ := by
  cases h with
  | nil _ _ => exact absurd rfl hne
  | cons _ l lin pi prep p prev ch₀ _ _ _ _ _ _ _ _ _ => exact ⟨ch₀, rfl⟩

theorem chain_li_pos (log : List Operation) (top : Operation) (ch : List Operation)
    (h : Chain log top ch) (hne : ch ≠ []) : ∃ l, top.linear_idx = some l ∧ 0 < l := by
  cases h with
  | nil _ _ => exact absurd rfl hne
  | cons _ l lin pi prep p prev ch₀ hli hl _ _ _ _ _ _ _ => exact ⟨l, hli, hl⟩

/-- Full characterisation of a `compact` run on a log with a valid, non-empty
chain: the old log is sealed with a `commit-close` built from the original
tip, and the new log's `linear_history` is the chain's `(date, original
description)` pairs, oldest first. -/
theorem compact_run (e : Engine) (d t : Nat) (tip : Operation) (ch : List Operation)
    (htop : listTop e.log = some (t, tip))
    (hch : Chain e.log tip ch)
    (hfuel : ch.length < e.log.length)
    (ht0 : t ≠ 0) (hne : ch ≠ [])
    (r0 : Operation) (h0 : e.log.get? 0 = some r0) (h0li : r0.linear_idx = some 0) :
    ∃ (nl' : List Operation),
      OpLog.compact e d =
        some (e.log ++ [OpLog.compactClose tip e.log.length d],
              { log := nl', store := e.store }) ∧
      OpLog.linear_history nl' =
        some (ch.reverse.map (fun op => (op.date, linDesc e.log op))) := by
  obtain ⟨l, hli, hl⟩ := chain_li_pos e.log tip ch hch hne
  obtain ⟨ch₀, hch0⟩ := chain_head e.log tip ch hch hne
  have hcond : ¬ (t = 0 ∨ tip.linear_idx = some 0) := by
    push_neg
    refine ⟨ht0, ?_⟩
    rw [hli]
    intro hc
    injection hc with hc
    omega
  have htn : tip.n = ch.length := chain_n _ _ _ hch
  obtain ⟨term, hwalk⟩ :=
    walkEntries_of_chain e.log tip ch hch e.log.length (List.replicate tip.n none) hfuel
  have hdense : chFill ch (List.replicate tip.n none) = ch.reverse.map some := by
    have h := chFill_dense e.log ch tip hch []
    rw [List.append_nil, List.append_nil] at h
    rw [htn]
    exact h
  rw [hdense] at hwalk
  have haux0 : OpLog.linHistAux [r0] 1 r0 = some [] := by
    unfold OpLog.linHistAux
    simp only [h0li]
    rw [if_neg (by omega)]
  obtain ⟨nl', lastRec', hrun, hlast', hlen', heq', hlin', haux'⟩ :=
    emitLoop_spec e.log ch.reverse term [r0] [] r0 1
      (fun o ho => chain_elem e.log tip ch hch o (List.mem_reverse.mp ho)) rfl haux0
  have hrun0 : OpLog.emitLoop e.log (ch.reverse.map some) term [r0] 0 =
      some (nl', ch.reverse.getLastD term, nl'.length - 1) := hrun
  have hlastD : ch.reverse.getLastD term = tip := by
    rw [hch0, List.reverse_cons]
    exact List.getLastD_concat _ _ _
  have hrevne : ch.reverse ≠ [] := by
    simp [hne]
  refine ⟨nl', ?_, ?_⟩
  · unfold OpLog.compact
    simp only [htop, h0]
    rw [if_neg hcond]
    simp only [hwalk, hrun0, hlastD]
  · have hNpos : 0 < ch.length := List.length_pos.mpr hne
    have hfuel2 : 1 + ch.reverse.length ≤ nl'.length := by
      rw [hlen']
      simp only [List.length_cons, List.length_reverse, List.length_nil]
      omega
    have haux2 := linHistAux_mono_fuel nl' _ nl'.length lastRec' _ haux' hfuel2
    have hn0 : nl'.length - 1 ≠ 0 := by
      rw [hlen']
      simp only [List.length_cons, List.length_reverse, List.length_nil]
      omega
    have hcond2 : ¬ (nl'.length - 1 = 0 ∨ lastRec'.linear_idx = some 0) := by
      push_neg
      refine ⟨hn0, ?_⟩
      rw [hlin' hrevne]
      intro hc
      injection hc with hc
      exact hn0 hc
    unfold OpLog.linear_history listTop
    simp only [hlast']
    rw [if_neg hcond2, haux2]
    simp only [Option.map_some', List.append_nil, List.reverse_reverse]

/-- C5: on a valid log (its tip's prev-chain satisfies the log invariants and
record 0 is the `commit-init`), `compact` succeeds, leaves the store
untouched, and the `linear_history` of the new log equals the
`linear_history` of the old log immediately before compaction. -/
theorem C5_compact (e : Engine) (d t : Nat) (tip : Operation) (ch : List Operation)
    (htop : listTop e.log = some (t, tip))
    (hch : Chain e.log tip ch)
    (hfuel : ch.length < e.log.length)
    (r0 : Operation) (h0 : e.log.get? 0 = some r0) (h0li : r0.linear_idx = some 0) :
    ∃ old' e', OpLog.compact e d = some (old', e') ∧
      e'.store = e.store ∧
      OpLog.linear_history e'.log = OpLog.linear_history e.log := by
  by_cases hcase : t = 0 ∨ tip.linear_idx = some 0
  · refine ⟨e.log, { log := [r0], store := e.store }, ?_, rfl, ?_⟩
    · unfold OpLog.compact
      simp only [htop, h0]
      rw [if_pos hcase]
    · have hnew : OpLog.linear_history [r0] = some [] := by
        unfold OpLog.linear_history listTop
        simp
      have hold : OpLog.linear_history e.log = some [] := by
        unfold OpLog.linear_history
        simp only [htop]
        rw [if_pos hcase]
      rw [hnew, hold]
  · push_neg at hcase
    obtain ⟨ht0, hli0⟩ := hcase
    have hne : ch ≠ [] := by
      intro he
      subst he
      cases hch
      rename_i ha hb
      exact hli0 ha
    obtain ⟨nl', hcomp, hhist⟩ := compact_run e d t tip ch htop hch hfuel ht0 hne r0 h0 h0li
    refine ⟨_, _, hcomp, rfl, ?_⟩
    show OpLog.linear_history nl' = _
    rw [hhist]
    unfold OpLog.linear_history
    simp only [htop]
    rw [if_neg (by push_neg; exact ⟨ht0, hli0⟩)]
    rw [linHistAux_of_chain e.log tip ch hch e.log.length hfuel]
    simp only [Option.map_some', List.map_reverse]

/-- C6: when `compact` runs on a log whose tip has a non-empty linear
history, the record appended to the old log is a `commit-close` whose state
is the state of the original tip (the tip at the start of compaction): the
loop-final value of `top` is the dense array's last slot, which the backward
walk filled with the original tip. -/
theorem C6_compact_close (e : Engine) (d t : Nat) (tip : Operation) (ch : List Operation)
    (htop : listTop e.log = some (t, tip))
    (hch : Chain e.log tip ch)
    (hne : ch ≠ []) (ht0 : t ≠ 0)
    (hfuel : ch.length < e.log.length)
    (r0 : Operation) (h0 : e.log.get? 0 = some r0) (h0li : r0.linear_idx = some 0) :
    ∃ old' e' close, OpLog.compact e d = some (old', e') ∧
      listTop old' = some (e.log.length, close) ∧
      close.kind = .commitClose ∧ close.state = tip.state ∧ close.n = tip.n + 1 := by
  obtain ⟨nl', hcomp, _⟩ := compact_run e d t tip ch htop hch hfuel ht0 hne r0 h0 h0li
  exact ⟨_, _, _, hcomp, listTop_concat _ _, rfl, rfl, rfl⟩

/-- The prev-chain of the scenario tip `cU` is well formed. -/
theorem chainU : Chain eU.log cU [cU] :=
  Chain.cons cU 2 cA 1 pA 0 rInit [] rfl (by omega) rfl rfl rfl rfl rfl (by decide)
    (Chain.nil rInit rfl rfl)

/-- Witness for C5 on the scenario log after `do A; do B; undo`. -/
theorem C5_compact_witness :
    Chain eU.log cU [cU] ∧
    (∃ old' e', OpLog.compact eU 9 = some (old', e') ∧ e'.store = eU.store ∧
      OpLog.linear_history e'.log = OpLog.linear_history eU.log) :=
  ⟨chainU, C5_compact eU 9 6 cU [cU] rfl chainU (by decide) rInit rfl rfl⟩

/-- Witness for C6 on the scenario log after `do A; do B; undo`. -/
theorem C6_compact_close_witness :
    ([cU] : List Operation) ≠ [] ∧
    (∃ old' e' close, OpLog.compact eU 9 = some (old', e') ∧
      listTop old' = some (eU.log.length, close) ∧
      close.kind = .commitClose ∧ close.state = cU.state ∧ close.n = cU.n + 1) :=
  ⟨by decide,
   C6_compact_close eU 9 6 cU [cU] rfl chainU (by decide) (by decide) (by decide)
     rInit rfl rfl⟩
